import Mathlib

/-!
Verification of the extraction-and-packaging pipeline in TestTask2.py.

The development shallowly embeds the program: pure string helpers
(normalize_repo_url, is_valid_url, pathlib suffix/stem, urlparse) become
Lean functions on strings; the filesystem becomes a rose tree of named
entries; the fallible external collaborators (git clone, shutil.move,
deletions, the manifest write, make_archive) are driven by an explicit
oracle recording which of them fail; main becomes a function from the
initial filesystem, the raw arguments and the oracle to a run result
(an exit code plus the final filesystem, or an uncaught exception).
-/

set_option maxHeartbeats 2000000

/-! ## Python string primitives -/

/-- Whitespace characters stripped by Python str.strip (ASCII fragment). -/
def isPyWs (c : Char) : Bool :=
  c = ' ' || c = '\t' || c = '\n' || c = '\r' || c = '\x0b' || c = '\x0c'

/-- Python str.strip on a character list: drop whitespace from both ends. -/
def stripChars (l : List Char) : List Char :=
  ((l.dropWhile isPyWs).reverse.dropWhile isPyWs).reverse

/-- Python str.strip. -/
def pyStrip (s : String) : String :=
  ⟨stripChars s.data⟩

/-- Python str.endswith: the suffix test used by normalize_repo_url. -/
def pyEndsWith (s suffix : String) : Bool :=
  suffix.data.reverse.isPrefixOf s.data.reverse

/-- normalize_repo_url from TestTask2.py: strip whitespace, append ".git"
if the reference does not already end with it. -/
def normalize_repo_url (url : String) : String :=
  let u := pyStrip url
  if pyEndsWith u ".git" then u else u ++ ".git"

/-- Characters allowed in a URL scheme after the leading letter
(urllib.parse.scheme_chars). -/
def isSchemeChar (c : Char) : Bool :=
  c.isAlphanum || c = '+' || c = '-' || c = '.'

/-- ASCII lowercasing applied by urlparse to the scheme. -/
def lowerString (s : String) : String :=
  ⟨s.data.map Char.toLower⟩

/-- The scheme component of urllib.parse.urlparse: the text before the
first colon, provided it starts with a letter and uses scheme characters
only; lowercased. Empty otherwise. -/
def urlScheme (s : String) : String :=
  let pre := s.data.takeWhile (· ≠ ':')
  if pre.length < s.data.length ∧ pre ≠ [] ∧
      (pre.headD 'a').isAlpha ∧ pre.all isSchemeChar then
    lowerString ⟨pre⟩
  else ""

/-- The remainder of the URL after the scheme prefix recognized by
urlScheme (the full string when no scheme is recognized). -/
def urlRest (s : String) : List Char :=
  let pre := s.data.takeWhile (· ≠ ':')
  if pre.length < s.data.length ∧ pre ≠ [] ∧
      (pre.headD 'a').isAlpha ∧ pre.all isSchemeChar then
    (s.data.drop pre.length).drop 1
  else s.data

/-- The netloc component of urllib.parse.urlparse: present only when the
text after the scheme starts with two slashes; runs up to the next
slash, question mark or hash. -/
def urlNetloc (s : String) : String :=
  match urlRest s with
  | '/' :: '/' :: rest => ⟨rest.takeWhile fun c => c ≠ '/' ∧ c ≠ '?' ∧ c ≠ '#'⟩
  | _ => ""

/-- is_valid_url from TestTask2.py: scheme http or https and a non-empty
netloc. -/
def is_valid_url (url : String) : Bool :=
  (urlScheme url = "http" || urlScheme url = "https") && urlNetloc url ≠ ""

/-- True for every character other than a dot. -/
def notDot (c : Char) : Bool := !(c = '.')

/-- pathlib suffix of a file name: the text from the last dot on,
provided that dot is neither the first nor the last character. -/
def pySuffix (name : String) : String :=
  let r := name.data.reverse
  let afterDot := r.takeWhile notDot
  match r.dropWhile notDot with
  | [] => ""
  | _ :: rest =>
      if afterDot = [] ∨ rest = [] then ""
      else ⟨'.' :: afterDot.reverse⟩

/-- pathlib stem of a file name: the name with pySuffix removed. -/
def pyStem (name : String) : String :=
  ⟨name.data.take (name.data.length - (pySuffix name).data.length)⟩

/-- Split a character list at every occurrence of a separator. -/
def splitOnChar (sep : Char) : List Char → List (List Char)
  | [] => [[]]
  | c :: rest =>
      match splitOnChar sep rest with
      | [] => [[]]
      | h :: t => if c = sep then [] :: h :: t else (c :: h) :: t

/-- The components of a pathlib path: split on slashes, dropping empty
components and single dots. -/
def pathParts (s : String) : List String :=
  ((splitOnChar '/' s.data).map fun l => (⟨l⟩ : String)).filter
    fun c => c ≠ "" && c ≠ "."

/-- pathlib name of a path: its last component (empty for a bare root or
dot path). -/
def pyPathName (s : String) : String :=
  (pathParts s).getLastD ""

/-- Path(repo_url).stem from TestTask2.py: the repository name the
working directory is named after. -/
def repoNameOf (url : String) : String :=
  pyStem (pyPathName url)

/-- str of a relative PurePosixPath: components joined by slashes. -/
def joinPath : List String → String
  | [] => "."
  | [x] => x
  | x :: rest => x ++ "/" ++ joinPath rest

/-! ## Filesystem trees -/

/-- A filesystem node: a regular file, or a directory holding an ordered
association list of named children. -/
inductive FS where
  | file : FS
  | dir (children : List (String × FS)) : FS

/-- First child with the given name, as directory listing lookup. -/
def childGet : List (String × FS) → String → Option FS
  | [], _ => none
  | (m, c) :: rest, n => if m = n then some c else childGet rest n

/-- Replace the first child with the given name, appending a new entry
when the name is absent. -/
def childSet : List (String × FS) → String → FS → List (String × FS)
  | [], n, t => [(n, t)]
  | (m, c) :: rest, n, t =>
      if m = n then (m, t) :: rest else (m, c) :: childSet rest n t

/-- Remove every child with the given name. -/
def childErase (cs : List (String × FS)) (n : String) : List (String × FS) :=
  cs.filter fun e => e.1 ≠ n

/-- Resolve a relative path below a node. -/
def FS.lookup : FS → List String → Option FS
  | t, [] => some t
  | .file, _ :: _ => none
  | .dir cs, n :: rest =>
      match childGet cs n with
      | none => none
      | some c => c.lookup rest

/-- True when the path resolves to some entry (os.path.exists). -/
def FS.existsAt (t : FS) (p : List String) : Bool :=
  (t.lookup p).isSome

/-- True when the path resolves to a directory (os.path.isdir). -/
def FS.isDirAt (t : FS) (p : List String) : Bool :=
  match t.lookup p with
  | some (.dir _) => true
  | _ => false

/-- A path is unblocked when no regular file sits strictly along it:
descending the path meets only directories or vanishes into a missing
entry. Placing a node at an unblocked path makes it resolvable. -/
def FS.unblocked : FS → List String → Bool
  | _, [] => true
  | .file, _ :: _ => false
  | .dir cs, n :: rest =>
      match childGet cs n with
      | none => true
      | some c => c.unblocked rest

/-- Place a node at a path, materializing missing intermediate
directories (the behavior of a move whose rename falls back to a
recursive copy, which creates the destination parents). A path blocked
by a regular file leaves the tree unchanged from that point down. -/
def FS.setAt : FS → List String → FS → FS
  | _, [], node => node
  | .file, _ :: _, _ => .file
  | .dir cs, n :: rest, node =>
      let c := (childGet cs n).getD (.dir [])
      .dir (childSet cs n (c.setAt rest node))

/-- Remove the entry at a path; paths that do not resolve leave the tree
unchanged. -/
def FS.removeAt : FS → List String → FS
  | t, [] => t
  | .file, _ :: _ => .file
  | .dir cs, [n] => .dir (childErase cs n)
  | .dir cs, n :: rest =>
      match childGet cs n with
      | none => .dir cs
      | some c => .dir (childSet cs n (c.removeAt rest))

/-- Apply a function to the node at a path, if it resolves. -/
def FS.updateAt : FS → List String → (FS → FS) → FS
  | t, [], f => f t
  | .file, _ :: _, _ => .file
  | .dir cs, n :: rest, f =>
      match childGet cs n with
      | none => .dir cs
      | some c => .dir (childSet cs n (c.updateAt rest f))

/-- Python os.makedirs with parents and exist_ok (Path.mkdir): ensure
every component of the path is a directory, creating missing ones; none
models the exception raised when a regular file is in the way. -/
def FS.mkdirP : FS → List String → Option FS
  | .file, _ => none
  | .dir cs, [] => some (.dir cs)
  | .dir cs, n :: rest =>
      match childGet cs n with
      | none =>
          match (FS.dir []).mkdirP rest with
          | none => none
          | some c => some (.dir (childSet cs n c))
      | some c =>
          match c.mkdirP rest with
          | none => none
          | some c2 => some (.dir (childSet cs n c2))

/-- The real destination of shutil.move: moving into an existing
directory targets a child of it named after the source. -/
def moveDst (t : FS) (src dst : List String) : List String :=
  if t.isDirAt dst then dst ++ [src.getLastD ""] else dst

/-- shutil.move: an existing real destination, a destination inside the
source, or a destination blocked by a regular file (the copy fallback
raises while creating it) is an error (none); otherwise the node is
detached and reattached, materializing missing destination parents as
the copy fallback does. -/
def FS.move (t : FS) (src dst : List String) : Option FS :=
  match t.lookup src with
  | none => none
  | some node =>
      if t.existsAt (moveDst t src dst) then none
      else if src.isPrefixOf (moveDst t src dst) then none
      else if (t.removeAt src).unblocked (moveDst t src dst) then
        some ((t.removeAt src).setAt (moveDst t src dst) node)
      else none

/-- Names of the direct children of a node (os.scandir order). -/
def FS.childNames : FS → List String
  | .file => []
  | .dir cs => cs.map Prod.fst

mutual
/-- Well-formedness of a tree: sibling names are distinct at every
level, as in a real directory hierarchy. -/
def FS.wfB : FS → Bool
  | .file => true
  | .dir cs => decide ((cs.map Prod.fst).Nodup) && childrenWfB cs

/-- Well-formedness of every tree in a child list. -/
def childrenWfB : List (String × FS) → Bool
  | [] => true
  | (_, c) :: rest => c.wfB && childrenWfB rest
end

mutual
/-- Relative component paths of every regular file below a node, in
directory order: the inventory os.walk visits. -/
def FS.filePaths : FS → List (List String)
  | .file => []
  | .dir cs => childFilePaths cs

/-- File paths contributed by a child list. -/
def childFilePaths : List (String × FS) → List (List String)
  | [] => []
  | (n, c) :: rest =>
      (match c with
       | .file => [[n]]
       | .dir cs => (childFilePaths cs).map (n :: ·)) ++ childFilePaths rest
end

/-! ## The pipeline -/

/-- Python string comparison on character lists: code-point
lexicographic, a strict prefix ordering before the longer string. -/
def strLeB : List Char → List Char → Bool
  | [], _ => true
  | _ :: _, [] => false
  | a :: as, b :: bs =>
      if a.toNat < b.toNat then true
      else if b.toNat < a.toNat then false
      else strLeB as bs

/-- The ascending order of Python sorted on strings. -/
def pyStrLe (a b : String) : Prop := strLeB a.data b.data = true

instance : DecidableRel pyStrLe := fun a b =>
  inferInstanceAs (Decidable (strLeB a.data b.data = true))

/-- The recognized source extensions of the manifest walk. -/
def exts : List String := [".py", ".js", ".sh"]

/-- The version_data object written to version.json. -/
structure Manifest where
  name : String
  version : String
  files : List String

/-- The product of shutil.make_archive: the zip file name, the single
top-level directory the archive is rooted at, and the archived tree. -/
structure ArchiveInfo where
  fileName : String
  rootName : String
  content : FS

/-- Extracting the archive reproduces one top-level directory named
after the subtree, holding the archived contents. -/
def extractArchive (a : ArchiveInfo) : FS :=
  .dir [(a.rootName, a.content)]

/-- Outcome of launching the git clone subprocess: a populated checkout,
a non-zero exit (CalledProcessError), or a missing git executable
(FileNotFoundError). -/
inductive CloneOutcome where
  | ok (repo : FS)
  | exitNonzero
  | gitMissing

/-- The failure oracle for the external collaborators: which fallible
operations of this run raise. -/
structure Oracle where
  clone : CloneOutcome
  moveTempFails : Bool
  deleteFails : String → Bool
  moveBackFails : Bool
  writeFails : Bool
  archiveFails : Bool

/-- Result of a run: safe_exit with a code and the filesystem at that
point (plus the manifest object and archive when produced), or an
uncaught Python exception. -/
inductive RunResult where
  | exited (code : Nat) (state : FS) (manifest : Option Manifest)
      (archive : Option ArchiveInfo)
  | uncaught (state : FS)

/-- The exit code of a run, when it terminated through sys.exit. -/
def RunResult.code : RunResult → Option Nat
  | .exited c _ _ _ => some c
  | .uncaught _ => none

/-- The manifest object of a run, when one was produced. -/
def RunResult.manifestOf : RunResult → Option Manifest
  | .exited _ _ m _ => m
  | .uncaught _ => none

/-- Repository acquisition: reuse an existing checkout when it carries
the .git marker, refuse a foreign directory (exit 3), otherwise clone
(exit 4 on a failed clone, an uncaught exception when git is absent). -/
def acquireStep (cwd : FS) (repoName : String) (o : Oracle) :
    Except RunResult FS :=
  match cwd.lookup [repoName] with
  | some t =>
      if (t.lookup [".git"]).isNone then .error (.exited 3 cwd none none)
      else .ok cwd
  | none =>
      match o.clone with
      | .gitMissing => .error (.uncaught cwd)
      | .exitNonzero => .error (.exited 4 cwd none none)
      | .ok repo => .ok (cwd.setAt [repoName] repo)

/-- The sibling-deletion pass over the working directory: every direct
child except .git and the temporary holder is deleted, and a failed
deletion (oracle) keeps its entry and continues. -/
def deletePass (cwd : FS) (repoName tempName : String)
    (fails : String → Bool) : FS :=
  cwd.updateAt [repoName] fun t =>
    match t with
    | .dir cs => .dir (cs.filter fun e =>
        e.1 = ".git" || e.1 = tempName || fails e.1)
    | t => t

/-- The version_data object assembled from the walk of the preserved
subtree: the fixed name, the caller-supplied version label, and the
sorted list of matching relative file paths. -/
def manifestOf (st : FS) (version : String) : Manifest :=
  ⟨"hello world", version,
   ((st.filePaths.filter fun p =>
      exts.contains (pySuffix (p.getLastD ""))).map joinPath).insertionSort
     pyStrLe⟩

/-- The archive step: make_archive writes the dated zip one level above
the working directory, rooted at the subtree name. cwd5 is the
filesystem after the manifest write. -/
def archivePhase (cwd5 : FS) (repoName keepName : String)
    (keepPath : List String) (o : Oracle) (today : String) (m : Manifest) :
    RunResult :=
  if o.archiveFails || cwd5.isDirAt [keepName ++ today ++ ".zip"] then
    .exited 9 cwd5 (some m) none
  else
    .exited 0 (cwd5.setAt [keepName ++ today ++ ".zip"] .file) (some m)
      (some ⟨keepName ++ today ++ ".zip", keepName,
        (cwd5.lookup (repoName :: keepPath)).getD (.dir [])⟩)

/-- The manifest walk and the version.json write, then the archive
step. cwd4 is the filesystem after the restore move. -/
def manifestPhase (cwd4 : FS) (repoName keepName : String)
    (keepPath : List String) (version : String) (o : Oracle)
    (today : String) : RunResult :=
  if o.writeFails ||
      cwd4.isDirAt (repoName :: (keepPath ++ ["version.json"])) then
    .exited 8 cwd4 none none
  else
    archivePhase
      (cwd4.setAt (repoName :: (keepPath ++ ["version.json"])) .file)
      repoName keepName keepPath o today
      (manifestOf ((cwd4.lookup (repoName :: keepPath)).getD (.dir []))
        version)

/-- mkdir of the missing parent chain and the restore move, then the
manifest phase. cwd2 is the filesystem after the deletion pass. -/
def restorePhase (cwd2 : FS) (repoName keepName tempName : String)
    (keepPath : List String) (version : String) (o : Oracle)
    (today : String) : RunResult :=
  match cwd2.mkdirP (repoName :: keepPath.dropLast) with
  | none => .uncaught cwd2
  | some cwd3 =>
      if o.moveBackFails then .exited 7 cwd3 none none
      else
        match cwd3.move [repoName, tempName] (repoName :: keepPath) with
        | none => .exited 7 cwd3 none none
        | some cwd4 =>
            manifestPhase cwd4 repoName keepName keepPath version o today

/-- Everything of main after acquisition: subtree isolation (move to the
temporary holder, best-effort deletion of siblings), then restore,
manifest and archive. -/
def phase2 (cwdA : FS) (repoName : String) (keepPath : List String)
    (version : String) (o : Oracle) (today : String) : RunResult :=
  if cwdA.isDirAt (repoName :: keepPath) = true then
    if o.moveTempFails then .exited 6 cwdA none none
    else
      match cwdA.move (repoName :: keepPath)
          [repoName, ".keep_temp_" ++ keepPath.getLastD repoName] with
      | none => .exited 6 cwdA none none
      | some cwd1 =>
          restorePhase
            (deletePass cwd1 repoName
              (".keep_temp_" ++ keepPath.getLastD repoName) o.deleteFails)
            repoName (keepPath.getLastD repoName)
            (".keep_temp_" ++ keepPath.getLastD repoName) keepPath version o
            today
  else .exited 5 cwdA none none

/-- main from TestTask2.py, after argv has been split into its three
positional arguments; today is the strftime rendering of the local
date. -/
def runMain (cwd : FS) (rawUrl : String) (keepPath : List String)
    (version : String) (o : Oracle) (today : String) : RunResult :=
  let repoUrl := normalize_repo_url rawUrl
  if ¬ is_valid_url repoUrl then .exited 2 cwd none none
  else
    let repoName := repoNameOf repoUrl
    match acquireStep cwd repoName o with
    | .error r => r
    | .ok cwdA => phase2 cwdA repoName keepPath version o today

/-! ## Sample inputs used by concrete witness runs -/

/-- A sample cloned repository: a git marker, the src subtree, and two
stray siblings. -/
def sampleRepo : FS :=
  .dir [(".git", .dir []),
    ("src", .dir [("a.py", .file), ("sub", .dir [("b.js", .file)])]),
    ("README.md", .file), ("docs", .dir [("x.txt", .file)])]

/-- An oracle whose clone succeeds with sampleRepo and in which no
external operation fails. -/
def sampleOracle : Oracle :=
  ⟨.ok sampleRepo, false, fun _ => false, false, false, false⟩

/-- The preserved subtree of the sample run after the manifest write. -/
def sampleSubtree : FS :=
  .dir [("a.py", .file), ("sub", .dir [("b.js", .file)]),
    ("version.json", .file)]

/-- The filesystem left by the successful sample run. -/
def sampleFinal : FS :=
  .dir [("proj", .dir [(".git", .dir []), ("src", sampleSubtree)]),
    ("src20260101.zip", .file)]

/-- A cloned repository whose keep path a/b is nested one level down. -/
def nestedRepoA : FS :=
  .dir [("proj", .dir [(".git", .dir []),
    ("a", .dir [("b", .dir [("f.py", .file)])]), ("junk", .file)])]

/-- nestedRepoA after the move of a/b to the temporary holder. -/
def nestedCwd1 : FS :=
  .dir [("proj", .dir [(".git", .dir []), ("a", .dir []), ("junk", .file),
    (".keep_temp_b", .dir [("f.py", .file)])])]

/-- A cloned repository with a stray sibling junk.txt beside the keep
directory. -/
def badRepo : FS :=
  .dir [(".git", .dir []), ("src", .dir [("a.py", .file)]),
    ("junk.txt", .file)]

/-- An oracle whose clone succeeds with badRepo and in which only the
deletion of junk.txt fails. -/
def badOracle : Oracle :=
  ⟨.ok badRepo, false, fun s => s = "junk.txt", false, false, false⟩

/-- The filesystem left by the run under badOracle: junk.txt survives
at the top level of the working directory. -/
def badFinal : FS :=
  .dir [("proj", .dir [(".git", .dir []), ("junk.txt", .file),
    ("src", .dir [("a.py", .file), ("version.json", .file)])]),
    ("src20260101.zip", .file)]

/-! ## Lemmas: whitespace stripping and normalization -/

theorem dropWhile_eq_self_of_head {α : Type} (p : α → Bool) (l : List α)
    (h : ∀ x, l.head? = some x → p x = false) : l.dropWhile p = l := by
  cases l with
  | nil => rfl
  | cons a t => simp [List.dropWhile_cons, h a rfl]

theorem head_stripChars_not (l : List Char) :
    ∀ x, (stripChars l).head? = some x → isPyWs x = false := by
  intro x hx
  unfold stripChars at hx
  rw [List.head?_reverse] at hx
  obtain ⟨pre, hpre⟩ := List.dropWhile_suffix (l := (l.dropWhile isPyWs).reverse)
    (p := isPyWs)
  have hBne : (l.dropWhile isPyWs).reverse.dropWhile isPyWs ≠ [] := by
    intro h
    rw [h] at hx
    simp at hx
  rw [← List.getLast?_append_of_ne_nil pre hBne, hpre,
    List.getLast?_eq_head?_reverse, List.reverse_reverse] at hx
  cases hd : l.dropWhile isPyWs with
  | nil => rw [hd] at hx; simp at hx
  | cons a t =>
      rw [hd] at hx
      have := List.head_dropWhile_not isPyWs l (by simp [hd])
      simp [hd] at this hx
      rwa [hx] at this

theorem getLast_stripChars_not (l : List Char) :
    ∀ x, (stripChars l).getLast? = some x → isPyWs x = false := by
  intro x hx
  unfold stripChars at hx
  rw [List.getLast?_eq_head?_reverse, List.reverse_reverse] at hx
  cases hd : (l.dropWhile isPyWs).reverse.dropWhile isPyWs with
  | nil => rw [hd] at hx; simp at hx
  | cons a t =>
      rw [hd] at hx
      have := List.head_dropWhile_not isPyWs (l.dropWhile isPyWs).reverse
        (by simp [hd])
      simp [hd] at this hx
      rwa [hx] at this

theorem stripChars_eq_self_of_clean (m : List Char)
    (hh : ∀ x, m.head? = some x → isPyWs x = false)
    (hl : ∀ x, m.getLast? = some x → isPyWs x = false) :
    stripChars m = m := by
  unfold stripChars
  rw [dropWhile_eq_self_of_head _ _ hh]
  rw [dropWhile_eq_self_of_head, List.reverse_reverse]
  intro x hx
  rw [List.head?_reverse] at hx
  exact hl x hx

theorem stripChars_idem (l : List Char) :
    stripChars (stripChars l) = stripChars l :=
  stripChars_eq_self_of_clean _ (head_stripChars_not l) (getLast_stripChars_not l)

theorem head?_append_of_ne_nil {α : Type} (a b : List α) (h : a ≠ []) :
    (a ++ b).head? = a.head? := by
  cases a with
  | nil => exact absurd rfl h
  | cons x t => rfl

theorem stripChars_append_clean (l m : List Char) (hm : m ≠ [])
    (hh : ∀ x, m.head? = some x → isPyWs x = false)
    (hl : ∀ x, m.getLast? = some x → isPyWs x = false) :
    stripChars (stripChars l ++ m) = stripChars l ++ m := by
  apply stripChars_eq_self_of_clean
  · intro x hx
    cases hs : stripChars l with
    | nil => rw [hs] at hx; simp at hx; exact hh x hx
    | cons a t =>
        rw [hs, head?_append_of_ne_nil _ _ (by simp)] at hx
        rw [← hs] at hx
        exact head_stripChars_not l x hx
  · intro x hx
    rw [List.getLast?_append_of_ne_nil _ hm] at hx
    exact hl x hx

theorem data_append (a b : String) : (a ++ b).data = a.data ++ b.data := rfl

theorem pyEndsWith_append_self (u suf : String) :
    pyEndsWith (u ++ suf) suf = true := by
  unfold pyEndsWith
  rw [List.isPrefixOf_iff_prefix, data_append, List.reverse_append]
  exact List.prefix_append _ _

theorem pyStrip_pyStrip (s : String) : pyStrip (pyStrip s) = pyStrip s :=
  congrArg String.mk (stripChars_idem s.data)

theorem pyStrip_strip_append_git (s : String) :
    pyStrip (pyStrip s ++ ".git") = pyStrip s ++ ".git" := by
  apply String.ext
  show stripChars ((pyStrip s ++ ".git").data) = (pyStrip s ++ ".git").data
  rw [data_append]
  show stripChars (stripChars s.data ++ (".git" : String).data) =
    stripChars s.data ++ (".git" : String).data
  refine stripChars_append_clean s.data (".git" : String).data (by decide) ?_ ?_
  · intro x hx
    have h0 : ((".git" : String).data).head? = some '.' := rfl
    rw [h0] at hx
    injection hx with h2
    rw [← h2]
    rfl
  · intro x hx
    have h0 : ((".git" : String).data).getLast? = some 't' := rfl
    rw [h0] at hx
    injection hx with h2
    rw [← h2]
    rfl

theorem normalize_eq_of_ends (s : String)
    (h : pyEndsWith (pyStrip s) ".git" = true) :
    normalize_repo_url s = pyStrip s := by
  simp [normalize_repo_url, h]

theorem normalize_eq_of_not_ends (s : String)
    (h : pyEndsWith (pyStrip s) ".git" = false) :
    normalize_repo_url s = pyStrip s ++ ".git" := by
  simp [normalize_repo_url, h]

/-- C5: normalization trims surrounding whitespace and appends the .git
suffix exactly once when it is absent (an already suffixed trimmed
reference is returned unchanged), and normalize_repo_url is idempotent. -/
theorem claim_C5_normalize_idempotent (s : String) :
    normalize_repo_url (normalize_repo_url s) = normalize_repo_url s ∧
    pyEndsWith (normalize_repo_url s) ".git" = true ∧
    (pyEndsWith (pyStrip s) ".git" = false →
      normalize_repo_url s = pyStrip s ++ ".git") ∧
    (pyEndsWith (pyStrip s) ".git" = true →
      normalize_repo_url s = pyStrip s) := by
  cases h : pyEndsWith (pyStrip s) ".git" with
  | true =>
      have e1 := normalize_eq_of_ends s h
      have e2 : normalize_repo_url (normalize_repo_url s) = normalize_repo_url s := by
        rw [e1, normalize_eq_of_ends (pyStrip s) (by rw [pyStrip_pyStrip]; exact h),
          pyStrip_pyStrip]
      exact ⟨e2, by rw [e1]; exact h, fun hc => absurd hc (by decide),
        fun _ => e1⟩
  | false =>
      have e1 := normalize_eq_of_not_ends s h
      have hend : pyEndsWith (normalize_repo_url s) ".git" = true := by
        rw [e1]; exact pyEndsWith_append_self _ _
      have estrip : pyStrip (normalize_repo_url s) = normalize_repo_url s := by
        rw [e1]; exact pyStrip_strip_append_git s
      have e2 : normalize_repo_url (normalize_repo_url s) = normalize_repo_url s := by
        rw [normalize_eq_of_ends (normalize_repo_url s) (by rw [estrip]; exact hend)]
        exact estrip
      exact ⟨e2, hend, fun _ => e1, fun hc => absurd hc (by decide)⟩

/-- Witness for C5 at a concrete reference carrying whitespace and no
suffix. -/
theorem claim_C5_witness :
    normalize_repo_url (normalize_repo_url " x ") = normalize_repo_url " x " ∧
    normalize_repo_url " x " = pyStrip " x " ++ ".git" :=
  ⟨(claim_C5_normalize_idempotent " x ").1,
   (claim_C5_normalize_idempotent " x ").2.2.1 (by decide)⟩

/-! ## Lemmas: child lists -/

theorem childGet_childSet (cs : List (String × FS)) (n m : String) (t : FS) :
    childGet (childSet cs n t) m = if m = n then some t else childGet cs m := by
  induction cs with
  | nil =>
      by_cases h : m = n
      · simp [childSet, childGet, h]
      · simp [childSet, childGet, h, Ne.symm h]
  | cons e rest ih =>
      obtain ⟨k, c⟩ := e
      by_cases hk : k = n
      · subst hk
        by_cases h : m = k
        · simp [childSet, childGet, h]
        · simp [childSet, childGet, h, Ne.symm h]
      · by_cases h : m = k
        · subst h
          simp [childSet, childGet, hk, Ne.symm hk]
        · simp [childSet, childGet, hk, h, Ne.symm h, ih]

theorem childGet_childErase (cs : List (String × FS)) (n m : String) :
    childGet (childErase cs n) m = if m = n then none else childGet cs m := by
  induction cs with
  | nil =>
      by_cases h : m = n <;> simp [childErase, childGet, h]
  | cons e rest ih =>
      obtain ⟨k, c⟩ := e
      by_cases hk : k = n
      · subst hk
        by_cases h : m = k
        · subst h
          simpa [childErase, List.filter_cons] using ih
        · simp [childErase, List.filter_cons, childGet, h, Ne.symm h] at ih ⊢
          exact ih
      · by_cases h : m = k
        · subst h
          simp [childErase, List.filter_cons, childGet, hk, Ne.symm hk, ih]
        · simp [childErase, List.filter_cons, childGet, hk, h, Ne.symm h] at ih ⊢
          exact ih

theorem childGet_filterName (cs : List (String × FS)) (P : String → Bool)
    (m : String) :
    childGet (cs.filter fun e => P e.1) m =
      if P m then childGet cs m else none := by
  induction cs with
  | nil => by_cases h : P m <;> simp [childGet, h]
  | cons e rest ih =>
      obtain ⟨k, c⟩ := e
      by_cases h : m = k
      · subst h
        by_cases hp : P m <;> simp [List.filter_cons, hp, childGet, ih]
      · by_cases hp : P k <;> by_cases hm : P m <;>
          simp [List.filter_cons, hp, hm, childGet, h, Ne.symm h, ih]

theorem childSet_self (cs : List (String × FS)) (n : String) (c : FS)
    (h : childGet cs n = some c) : childSet cs n c = cs := by
  induction cs with
  | nil => simp [childGet] at h
  | cons e rest ih =>
      obtain ⟨k, d⟩ := e
      by_cases hk : k = n
      · subst hk
        simp [childGet] at h
        simp [childSet, h]
      · simp [childGet, hk] at h
        simp [childSet, hk, ih h]

/-! ## Lemmas: path operations -/

theorem FS.lookup_append (t : FS) (p q : List String) :
    t.lookup (p ++ q) = (t.lookup p).bind fun u => u.lookup q := by
  induction p generalizing t with
  | nil => simp [FS.lookup]
  | cons n rest ih =>
      cases t with
      | file => simp [FS.lookup]
      | dir cs =>
          simp only [List.cons_append, FS.lookup]
          cases childGet cs n with
          | none => simp
          | some c => simpa using ih c

theorem FS.unblocked_dirNil (p : List String) :
    (FS.dir []).unblocked p = true := by
  cases p <;> simp [FS.unblocked, childGet]

theorem FS.lookup_setAt_self (t : FS) (p : List String) (v : FS)
    (h : t.unblocked p = true) : (t.setAt p v).lookup p = some v := by
  induction p generalizing t with
  | nil => simp [FS.setAt, FS.lookup]
  | cons n rest ih =>
      cases t with
      | file => simp [FS.unblocked] at h
      | dir cs =>
          simp only [FS.unblocked] at h
          cases hc : childGet cs n with
          | none =>
              rw [hc] at h
              have hx := ih (FS.dir []) (FS.unblocked_dirNil rest)
              simp [FS.setAt, hc, FS.lookup, childGet_childSet, hx]
          | some c =>
              rw [hc] at h
              have hx := ih c h
              simp [FS.setAt, hc, FS.lookup, childGet_childSet, hx]

theorem FS.unblocked_snoc_of_isDirAt (t : FS) (p : List String) (x : String)
    (h : t.isDirAt p = true) : t.unblocked (p ++ [x]) = true := by
  induction p generalizing t with
  | nil =>
      cases t with
      | file => simp [FS.isDirAt, FS.lookup] at h
      | dir cs =>
          simp only [List.nil_append, FS.unblocked]
          cases hc : childGet cs x with
          | none => rfl
          | some c => cases c <;> simp [FS.unblocked]
  | cons n rest ih =>
      cases t with
      | file => simp [FS.isDirAt, FS.lookup] at h
      | dir cs =>
          simp only [List.cons_append, FS.unblocked]
          cases hc : childGet cs n with
          | none => rfl
          | some c =>
              apply ih
              simpa [FS.isDirAt, FS.lookup, hc] using h

theorem FS.unblocked_removeAt (t : FS) (p q : List String)
    (h : t.unblocked p = true) : (t.removeAt q).unblocked p = true := by
  induction q generalizing t p with
  | nil => simpa [FS.removeAt] using h
  | cons n qrest ih =>
      cases t with
      | file =>
          cases p with
          | nil => simp [FS.unblocked]
          | cons m pr => simp [FS.unblocked] at h
      | dir cs =>
          cases p with
          | nil => simp [FS.unblocked]
          | cons m prest =>
              simp only [FS.unblocked] at h
              cases qrest with
              | nil =>
                  simp only [FS.removeAt, FS.unblocked, childGet_childErase]
                  by_cases hmn : m = n
                  · simp [hmn]
                  · simp only [if_neg hmn]
                    cases hc : childGet cs m with
                    | none => rfl
                    | some c => rw [hc] at h; exact h
              | cons q1 q2 =>
                  simp only [FS.removeAt]
                  cases hcn : childGet cs n with
                  | none => simpa [FS.unblocked] using h
                  | some c =>
                      simp only [FS.unblocked, childGet_childSet]
                      by_cases hmn : m = n
                      · subst hmn
                        simp only [if_pos rfl]
                        rw [hcn] at h
                        exact ih c _ h
                      · simp only [if_neg hmn]
                        cases hc : childGet cs m with
                        | none => rfl
                        | some c2 => rw [hc] at h; exact h

theorem FS.lookup_setAt_diverge (t : FS) (p q : List String) (v : FS)
    (hpq : ¬ p <+: q) (hqp : ¬ q <+: p) :
    (t.setAt p v).lookup q = t.lookup q := by
  induction p generalizing t q with
  | nil => exact absurd (List.nil_prefix) hpq
  | cons n prest ih =>
      cases q with
      | nil => exact absurd (List.nil_prefix) hqp
      | cons m qrest =>
          cases t with
          | file => simp [FS.setAt]
          | dir cs =>
              by_cases hmn : m = n
              · subst hmn
                have hpq2 : ¬ prest <+: qrest := fun hh =>
                  hpq (List.cons_prefix_cons.mpr ⟨rfl, hh⟩)
                have hqp2 : ¬ qrest <+: prest := fun hh =>
                  hqp (List.cons_prefix_cons.mpr ⟨rfl, hh⟩)
                cases hc : childGet cs m with
                | none =>
                    have hx := ih (FS.dir []) qrest hpq2 hqp2
                    simp only [FS.setAt, hc, Option.getD_none, FS.lookup,
                      childGet_childSet, if_pos rfl]
                    cases qrest with
                    | nil => exact absurd List.nil_prefix hqp2
                    | cons a b => simp [hx, FS.lookup, childGet]
                | some c =>
                    have hx := ih c qrest hpq2 hqp2
                    simp [FS.setAt, hc, FS.lookup, childGet_childSet, hx]
              · simp [FS.setAt, FS.lookup, childGet_childSet, hmn]

theorem FS.lookup_removeAt_diverge (t : FS) (p q : List String)
    (hpq : ¬ p <+: q) (hqp : ¬ q <+: p) :
    (t.removeAt p).lookup q = t.lookup q := by
  induction p generalizing t q with
  | nil => exact absurd (List.nil_prefix) hpq
  | cons n prest ih =>
      cases q with
      | nil => exact absurd (List.nil_prefix) hqp
      | cons m qrest =>
          cases t with
          | file => simp [FS.removeAt]
          | dir cs =>
              cases prest with
              | nil =>
                  have hmn : ¬ m = n := by
                    intro hh
                    subst hh
                    exact hpq (List.cons_prefix_cons.mpr ⟨rfl, List.nil_prefix⟩)
                  simp [FS.removeAt, FS.lookup, childGet_childErase, hmn]
              | cons p1 p2 =>
                  by_cases hmn : m = n
                  · subst hmn
                    have hpq2 : ¬ (p1 :: p2) <+: qrest := fun hh =>
                      hpq (List.cons_prefix_cons.mpr ⟨rfl, hh⟩)
                    have hqp2 : ¬ qrest <+: (p1 :: p2) := fun hh =>
                      hqp (List.cons_prefix_cons.mpr ⟨rfl, hh⟩)
                    cases hc : childGet cs m with
                    | none => simp [FS.removeAt, hc]
                    | some c =>
                        have hx := ih c qrest hpq2 hqp2
                        simp [FS.removeAt, hc, FS.lookup, childGet_childSet, hx]
                  · cases hc : childGet cs n with
                    | none => simp [FS.removeAt, hc]
                    | some c =>
                        simp [FS.removeAt, hc, FS.lookup, childGet_childSet, hmn]

theorem FS.lookup_removeAt_self (t : FS) (p : List String) (hp : p ≠ []) :
    (t.removeAt p).lookup p = none := by
  induction p generalizing t with
  | nil => exact absurd rfl hp
  | cons n prest ih =>
      cases t with
      | file => simp [FS.removeAt, FS.lookup]
      | dir cs =>
          cases prest with
          | nil => simp [FS.removeAt, FS.lookup, childGet_childErase]
          | cons p1 p2 =>
              cases hc : childGet cs n with
              | none => simp [FS.removeAt, hc, FS.lookup]
              | some c =>
                  have hx := ih c (by simp)
                  simp [FS.removeAt, hc, FS.lookup, childGet_childSet, hx]

theorem FS.lookup_updateAt_self (t : FS) (p : List String) (f : FS → FS) :
    (t.updateAt p f).lookup p = (t.lookup p).map f := by
  induction p generalizing t with
  | nil => simp [FS.updateAt, FS.lookup]
  | cons n prest ih =>
      cases t with
      | file => simp [FS.updateAt, FS.lookup]
      | dir cs =>
          cases hc : childGet cs n with
          | none => simp [FS.updateAt, hc, FS.lookup]
          | some c =>
              have hx := ih c
              simp [FS.updateAt, hc, FS.lookup, childGet_childSet, hx]

theorem FS.lookup_updateAt_diverge (t : FS) (p q : List String) (f : FS → FS)
    (hpq : ¬ p <+: q) (hqp : ¬ q <+: p) :
    (t.updateAt p f).lookup q = t.lookup q := by
  induction p generalizing t q with
  | nil => exact absurd (List.nil_prefix) hpq
  | cons n prest ih =>
      cases q with
      | nil => exact absurd (List.nil_prefix) hqp
      | cons m qrest =>
          cases t with
          | file => simp [FS.updateAt]
          | dir cs =>
              by_cases hmn : m = n
              · subst hmn
                have hpq2 : ¬ prest <+: qrest := fun hh =>
                  hpq (List.cons_prefix_cons.mpr ⟨rfl, hh⟩)
                have hqp2 : ¬ qrest <+: prest := fun hh =>
                  hqp (List.cons_prefix_cons.mpr ⟨rfl, hh⟩)
                cases hc : childGet cs m with
                | none => simp [FS.updateAt, hc]
                | some c =>
                    have hx := ih c qrest hpq2 hqp2
                    simp [FS.updateAt, hc, FS.lookup, childGet_childSet, hx]
              · cases hc : childGet cs n with
                | none => simp [FS.updateAt, hc]
                | some c =>
                    simp [FS.updateAt, hc, FS.lookup, childGet_childSet, hmn]

theorem FS.isDirAt_mkdirP (t : FS) (p : List String) (t2 : FS)
    (h : t.mkdirP p = some t2) : t2.isDirAt p = true := by
  induction p generalizing t t2 with
  | nil =>
      cases t with
      | file => simp [FS.mkdirP] at h
      | dir cs =>
          simp only [FS.mkdirP, Option.some.injEq] at h
          subst h
          simp [FS.isDirAt, FS.lookup]
  | cons n prest ih =>
      cases t with
      | file => simp [FS.mkdirP] at h
      | dir cs =>
          cases hc : childGet cs n with
          | none =>
              simp only [FS.mkdirP, hc] at h
              cases hm : (FS.dir []).mkdirP prest with
              | none => simp [hm] at h
              | some c2 =>
                  simp only [hm, Option.some.injEq] at h
                  subst h
                  have hx := ih _ _ hm
                  simp only [FS.isDirAt, FS.lookup, childGet_childSet,
                    if_pos rfl] at hx ⊢
                  exact hx
          | some c =>
              simp only [FS.mkdirP, hc] at h
              cases hm : c.mkdirP prest with
              | none => simp [hm] at h
              | some c2 =>
                  simp only [hm, Option.some.injEq] at h
                  subst h
                  have hx := ih _ _ hm
                  simp only [FS.isDirAt, FS.lookup, childGet_childSet,
                    if_pos rfl] at hx ⊢
                  exact hx

theorem FS.lookup_mkdirP_append (t : FS) (p : List String) (t2 : FS)
    (x : String) (r : List String) (h : t.mkdirP p = some t2) :
    t2.lookup (p ++ x :: r) = t.lookup (p ++ x :: r) := by
  induction p generalizing t t2 with
  | nil =>
      cases t with
      | file => simp [FS.mkdirP] at h
      | dir cs =>
          simp only [FS.mkdirP, Option.some.injEq] at h
          subst h
          rfl
  | cons n prest ih =>
      cases t with
      | file => simp [FS.mkdirP] at h
      | dir cs =>
          cases hc : childGet cs n with
          | none =>
              simp only [FS.mkdirP, hc] at h
              cases hm : (FS.dir []).mkdirP prest with
              | none => simp [hm] at h
              | some c2 =>
                  simp only [hm, Option.some.injEq] at h
                  subst h
                  have hx := ih _ _ hm
                  have hz : (FS.dir []).lookup (prest ++ x :: r) = none := by
                    cases prest <;> simp [FS.lookup, childGet]
                  simp [FS.lookup, childGet_childSet, hc, hx, hz]
          | some c =>
              simp only [FS.mkdirP, hc] at h
              cases hm : c.mkdirP prest with
              | none => simp [hm] at h
              | some c2 =>
                  simp only [hm, Option.some.injEq] at h
                  subst h
                  have hx := ih _ _ hm
                  simp [FS.lookup, childGet_childSet, hc, hx]

/-! ## Lemmas: well-formedness is preserved by every operation -/

theorem childrenWfB_iff (cs : List (String × FS)) :
    childrenWfB cs = true ↔ ∀ e ∈ cs, e.2.wfB = true := by
  induction cs with
  | nil => simp [childrenWfB]
  | cons e rest ih =>
      obtain ⟨k, c⟩ := e
      simp [childrenWfB, ih, Bool.and_eq_true]

theorem wfB_dir (cs : List (String × FS)) :
    FS.wfB (.dir cs) = (decide ((cs.map Prod.fst).Nodup) && childrenWfB cs) := by
  simp [FS.wfB]

theorem wfB_dirNil : FS.wfB (.dir []) = true := by
  simp [FS.wfB, childrenWfB]

theorem childGet_mem (cs : List (String × FS)) (n : String) (c : FS)
    (h : childGet cs n = some c) : (n, c) ∈ cs := by
  induction cs with
  | nil => simp [childGet] at h
  | cons e rest ih =>
      obtain ⟨k, d⟩ := e
      by_cases hk : k = n
      · subst hk
        simp [childGet] at h
        simp [h]
      · simp [childGet, hk] at h
        simp [ih h]

theorem FS.wf_lookup (t : FS) (p : List String) (u : FS)
    (ht : t.wfB = true) (h : t.lookup p = some u) : u.wfB = true := by
  induction p generalizing t with
  | nil => simp only [FS.lookup, Option.some.injEq] at h; rwa [← h]
  | cons n rest ih =>
      cases t with
      | file => simp [FS.lookup] at h
      | dir cs =>
          cases hc : childGet cs n with
          | none => simp [FS.lookup, hc] at h
          | some c =>
              simp only [FS.lookup, hc] at h
              have hcw : c.wfB = true := by
                rw [wfB_dir, Bool.and_eq_true] at ht
                exact (childrenWfB_iff cs).mp ht.2 (n, c) (childGet_mem cs n c hc)
              exact ih c hcw h

theorem mem_keys_childSet (cs : List (String × FS)) (n m : String) (v : FS) :
    m ∈ (childSet cs n v).map Prod.fst ↔ m ∈ cs.map Prod.fst ∨ m = n := by
  induction cs with
  | nil => simp [childSet]
  | cons e rest ih =>
      obtain ⟨k, c⟩ := e
      by_cases hk : k = n
      · subst hk
        simp [childSet]
        tauto
      · simp [childSet, hk, ih, or_assoc]

theorem nodup_keys_childSet (cs : List (String × FS)) (n : String) (v : FS)
    (h : (cs.map Prod.fst).Nodup) : ((childSet cs n v).map Prod.fst).Nodup := by
  induction cs with
  | nil => simp [childSet]
  | cons e rest ih =>
      obtain ⟨k, c⟩ := e
      simp only [List.map_cons, List.nodup_cons] at h
      by_cases hk : k = n
      · subst hk
        simpa [childSet, List.nodup_cons] using h
      · simp only [childSet, if_neg hk, List.map_cons, List.nodup_cons]
        refine ⟨fun hm => ?_, ih h.2⟩
        rcases (mem_keys_childSet rest n k v).mp hm with hm2 | hm2
        · exact h.1 hm2
        · exact hk hm2

theorem childrenWfB_childSet (cs : List (String × FS)) (n : String) (v : FS)
    (h : childrenWfB cs = true) (hv : v.wfB = true) :
    childrenWfB (childSet cs n v) = true := by
  rw [childrenWfB_iff] at h ⊢
  intro e he
  induction cs with
  | nil =>
      simp [childSet] at he
      subst he
      exact hv
  | cons e2 rest ih =>
      obtain ⟨k, c⟩ := e2
      by_cases hk : k = n
      · subst hk
        simp only [childSet, if_pos rfl] at he
        rcases List.mem_cons.mp he with h1 | h1
        · rw [h1]; exact hv
        · exact h e (List.mem_cons_of_mem _ h1)
      · simp only [childSet, if_neg hk] at he
        rcases List.mem_cons.mp he with h1 | h1
        · rw [h1]
          exact h (k, c) (List.mem_cons_self _ _)
        · exact ih (fun e2 he2 => h e2 (List.mem_cons_of_mem _ he2)) h1

theorem FS.wf_setAt (t : FS) (p : List String) (v : FS)
    (ht : t.wfB = true) (hv : v.wfB = true) : (t.setAt p v).wfB = true := by
  induction p generalizing t with
  | nil => simpa [FS.setAt] using hv
  | cons n rest ih =>
      cases t with
      | file => simpa [FS.setAt, FS.wfB] using ht
      | dir cs =>
          rw [wfB_dir, Bool.and_eq_true] at ht
          have hcw : ((childGet cs n).getD (FS.dir [])).wfB = true := by
            cases hc : childGet cs n with
            | none => simpa using wfB_dirNil
            | some c =>
                simpa using
                  (childrenWfB_iff cs).mp ht.2 (n, c) (childGet_mem cs n c hc)
          have hnew := ih _ hcw
          simp only [FS.setAt, wfB_dir, Bool.and_eq_true]
          exact ⟨by simpa using nodup_keys_childSet cs n _ (by simpa using ht.1),
            childrenWfB_childSet cs n _ ht.2 hnew⟩

theorem childrenWfB_filter (cs : List (String × FS)) (P : String × FS → Bool)
    (h : childrenWfB cs = true) : childrenWfB (cs.filter P) = true := by
  rw [childrenWfB_iff] at h ⊢
  exact fun e he => h e (List.mem_of_mem_filter he)

theorem nodup_keys_filter (cs : List (String × FS)) (P : String × FS → Bool)
    (h : (cs.map Prod.fst).Nodup) : ((cs.filter P).map Prod.fst).Nodup := by
  have hsub : List.Sublist ((cs.filter P).map Prod.fst) (cs.map Prod.fst) :=
    (List.filter_sublist cs).map Prod.fst
  exact h.sublist hsub

theorem FS.wf_removeAt (t : FS) (p : List String)
    (ht : t.wfB = true) : (t.removeAt p).wfB = true := by
  induction p generalizing t with
  | nil => simpa [FS.removeAt] using ht
  | cons n rest ih =>
      cases t with
      | file => simpa [FS.removeAt, FS.wfB] using ht
      | dir cs =>
          rw [wfB_dir, Bool.and_eq_true] at ht
          cases rest with
          | nil =>
              simp only [FS.removeAt, childErase, wfB_dir, Bool.and_eq_true]
              exact ⟨by simpa using nodup_keys_filter cs _ (by simpa using ht.1),
                childrenWfB_filter cs _ ht.2⟩
          | cons r1 r2 =>
              cases hc : childGet cs n with
              | none =>
                  simp only [FS.removeAt, hc, wfB_dir, Bool.and_eq_true]
                  exact ⟨ht.1, ht.2⟩
              | some c =>
                  have hcw : c.wfB = true :=
                    (childrenWfB_iff cs).mp ht.2 (n, c) (childGet_mem cs n c hc)
                  simp only [FS.removeAt, hc, wfB_dir, Bool.and_eq_true]
                  exact ⟨by simpa using nodup_keys_childSet cs n _ (by simpa using ht.1),
                    childrenWfB_childSet cs n _ ht.2 (ih c hcw)⟩

theorem FS.wf_updateAt (t : FS) (p : List String) (f : FS → FS)
    (ht : t.wfB = true) (hf : ∀ u, u.wfB = true → (f u).wfB = true) :
    (t.updateAt p f).wfB = true := by
  induction p generalizing t with
  | nil => simpa [FS.updateAt] using hf t ht
  | cons n rest ih =>
      cases t with
      | file => simpa [FS.updateAt, FS.wfB] using ht
      | dir cs =>
          rw [wfB_dir, Bool.and_eq_true] at ht
          cases hc : childGet cs n with
          | none =>
              simp only [FS.updateAt, hc, wfB_dir, Bool.and_eq_true]
              exact ⟨ht.1, ht.2⟩
          | some c =>
              have hcw : c.wfB = true :=
                (childrenWfB_iff cs).mp ht.2 (n, c) (childGet_mem cs n c hc)
              simp only [FS.updateAt, hc, wfB_dir, Bool.and_eq_true]
              exact ⟨by simpa using nodup_keys_childSet cs n _ (by simpa using ht.1),
                childrenWfB_childSet cs n _ ht.2 (ih c hcw)⟩

theorem FS.wf_mkdirP (t : FS) (p : List String) (t2 : FS)
    (ht : t.wfB = true) (h : t.mkdirP p = some t2) : t2.wfB = true := by
  induction p generalizing t t2 with
  | nil =>
      cases t with
      | file => simp [FS.mkdirP] at h
      | dir cs =>
          simp only [FS.mkdirP, Option.some.injEq] at h
          rwa [← h]
  | cons n rest ih =>
      cases t with
      | file => simp [FS.mkdirP] at h
      | dir cs =>
          rw [wfB_dir, Bool.and_eq_true] at ht
          cases hc : childGet cs n with
          | none =>
              simp only [FS.mkdirP, hc] at h
              cases hm : (FS.dir []).mkdirP rest with
              | none => simp [hm] at h
              | some c2 =>
                  simp only [hm, Option.some.injEq] at h
                  subst h
                  have hc2 := ih _ _ wfB_dirNil hm
                  simp only [wfB_dir, Bool.and_eq_true]
                  exact ⟨by simpa using nodup_keys_childSet cs n _ (by simpa using ht.1),
                    childrenWfB_childSet cs n _ ht.2 hc2⟩
          | some c =>
              have hcw : c.wfB = true :=
                (childrenWfB_iff cs).mp ht.2 (n, c) (childGet_mem cs n c hc)
              simp only [FS.mkdirP, hc] at h
              cases hm : c.mkdirP rest with
              | none => simp [hm] at h
              | some c2 =>
                  simp only [hm, Option.some.injEq] at h
                  subst h
                  have hc2 := ih _ _ hcw hm
                  simp only [wfB_dir, Bool.and_eq_true]
                  exact ⟨by simpa using nodup_keys_childSet cs n _ (by simpa using ht.1),
                    childrenWfB_childSet cs n _ ht.2 hc2⟩

theorem FS.wf_move (t : FS) (src dst : List String) (t2 : FS)
    (ht : t.wfB = true) (h : t.move src dst = some t2) : t2.wfB = true := by
  unfold FS.move at h
  cases hl : t.lookup src with
  | none => rw [hl] at h; simp at h
  | some node =>
      rw [hl] at h
      simp at h
      obtain ⟨h1, h2, h3, h4⟩ := h
      rw [← h4]
      exact FS.wf_setAt _ _ _ (FS.wf_removeAt t src ht)
        (FS.wf_lookup t src node ht hl)

/-! ## Lemmas: the walk inventory -/

theorem lookup_dir_cons_ne (n a : String) (c : FS) (rest : List (String × FS))
    (b : List String) (h : a ≠ n) :
    (FS.dir ((n, c) :: rest)).lookup (a :: b) =
      (FS.dir rest).lookup (a :: b) := by
  have hna : (n = a) = False := eq_false fun hh => h hh.symm
  simp [FS.lookup, childGet, hna]

theorem lookup_dir_cons_eq (n : String) (c : FS) (rest : List (String × FS))
    (b : List String) :
    (FS.dir ((n, c) :: rest)).lookup (n :: b) = c.lookup b := by
  simp [FS.lookup, childGet]

theorem mem_childFilePaths (cs : List (String × FS)) :
    FS.wfB (.dir cs) = true → ∀ ps : List String,
      (ps ∈ childFilePaths cs ↔
        ps ≠ [] ∧ (FS.dir cs).lookup ps = some .file) := by
  induction cs using childFilePaths.induct with
  | case1 =>
      intro hw ps
      constructor
      · intro h
        simp [childFilePaths] at h
      · rintro ⟨hne, hl⟩
        cases ps with
        | nil => exact absurd rfl hne
        | cons a b => simp [FS.lookup, childGet] at hl
  | case2 n c rest ihc ihr =>
      intro hw ps
      rw [wfB_dir, Bool.and_eq_true, decide_eq_true_eq] at hw
      obtain ⟨hnodup, hcw⟩ := hw
      simp only [List.map_cons, List.nodup_cons] at hnodup
      have hnotin : n ∉ rest.map Prod.fst := hnodup.1
      simp only [childrenWfB, Bool.and_eq_true] at hcw
      have hw2 : FS.wfB (.dir rest) = true := by
        rw [wfB_dir, Bool.and_eq_true, decide_eq_true_eq]
        exact ⟨hnodup.2, hcw.2⟩
      have hrest : ∀ a b, (FS.dir rest).lookup (a :: b) = some .file → a ≠ n := by
        intro a b hl han
        subst han
        simp only [FS.lookup] at hl
        cases hg : childGet rest a with
        | none => rw [hg] at hl; simp at hl
        | some c2 =>
            exact hnotin (List.mem_map.mpr ⟨(a, c2), childGet_mem rest a c2 hg, rfl⟩)
      cases c with
      | file =>
          constructor
          · intro h
            simp only [childFilePaths, List.mem_append, List.mem_singleton] at h
            rcases h with h | h
            · subst h
              exact ⟨by simp, by simp [FS.lookup, childGet]⟩
            · obtain ⟨hne, hl⟩ := (ihr hw2 ps).mp h
              refine ⟨hne, ?_⟩
              cases ps with
              | nil => exact absurd rfl hne
              | cons a b =>
                  have han : a ≠ n := hrest a b hl
                  rw [lookup_dir_cons_ne n a _ rest b han]
                  exact hl
          · rintro ⟨hne, hl⟩
            cases ps with
            | nil => exact absurd rfl hne
            | cons a b =>
                simp only [childFilePaths, List.mem_append, List.mem_singleton]
                by_cases han : a = n
                · subst han
                  simp only [FS.lookup, childGet, if_pos rfl] at hl
                  cases b with
                  | nil => exact Or.inl rfl
                  | cons b1 b2 => simp [FS.lookup] at hl
                · right
                  rw [ihr hw2 (a :: b)]
                  refine ⟨by simp, ?_⟩
                  rw [← lookup_dir_cons_ne n a _ rest b han]
                  exact hl
      | dir cs2 =>
          have hw3 : FS.wfB (.dir cs2) = true := hcw.1
          constructor
          · intro h
            simp only [childFilePaths, List.mem_append, List.mem_map] at h
            rcases h with ⟨q, hq, hqe⟩ | h
            · obtain ⟨hne, hl⟩ := (ihc hw3 q).mp hq
              subst hqe
              refine ⟨by simp, ?_⟩
              simpa [FS.lookup, childGet] using hl
            · obtain ⟨hne, hl⟩ := (ihr hw2 ps).mp h
              refine ⟨hne, ?_⟩
              cases ps with
              | nil => exact absurd rfl hne
              | cons a b =>
                  have han : a ≠ n := hrest a b hl
                  rw [lookup_dir_cons_ne n a _ rest b han]
                  exact hl
          · rintro ⟨hne, hl⟩
            cases ps with
            | nil => exact absurd rfl hne
            | cons a b =>
                simp only [childFilePaths, List.mem_append, List.mem_map]
                by_cases han : a = n
                · subst han
                  left
                  simp only [FS.lookup, childGet, if_pos rfl] at hl
                  refine ⟨b, ?_, rfl⟩
                  rw [ihc hw3 b]
                  refine ⟨?_, hl⟩
                  intro hb
                  subst hb
                  simp [FS.lookup] at hl
                · right
                  rw [ihr hw2 (a :: b)]
                  refine ⟨by simp, ?_⟩
                  rw [← lookup_dir_cons_ne n a _ rest b han]
                  exact hl

theorem FS.mem_filePaths (t : FS) (hw : t.wfB = true) (ps : List String) :
    ps ∈ t.filePaths ↔ ps ≠ [] ∧ t.lookup ps = some .file := by
  cases t with
  | file =>
      constructor
      · intro h
        simp [FS.filePaths] at h
      · rintro ⟨hne, hl⟩
        cases ps with
        | nil => exact absurd rfl hne
        | cons a b => simp [FS.lookup] at hl
  | dir cs =>
      have := mem_childFilePaths cs hw ps
      simpa [FS.filePaths] using this

/-! ## Lemmas: the Python string order -/

theorem strLeB_total (a b : List Char) : strLeB a b = true ∨ strLeB b a = true := by
  induction a generalizing b with
  | nil => left; rfl
  | cons x xs ih =>
      cases b with
      | nil => right; rfl
      | cons y ys =>
          by_cases h1 : x.toNat < y.toNat
          · left; simp [strLeB, h1]
          · by_cases h2 : y.toNat < x.toNat
            · right; simp [strLeB, h2]
            · rcases ih ys with h | h
              · left; simp [strLeB, h1, h2, h]
              · right; simp [strLeB, h1, h2, h]

theorem strLeB_trans (a b c : List Char) (h1 : strLeB a b = true)
    (h2 : strLeB b c = true) : strLeB a c = true := by
  induction a generalizing b c with
  | nil => rfl
  | cons x xs ih =>
      cases b with
      | nil => simp [strLeB] at h1
      | cons y ys =>
          cases c with
          | nil => simp [strLeB] at h2
          | cons z zs =>
              simp only [strLeB] at h1 h2 ⊢
              by_cases hxy : x.toNat < y.toNat
              · rw [if_pos hxy] at h1
                by_cases hyz : y.toNat < z.toNat
                · rw [if_pos (show x.toNat < z.toNat by omega)]
                · by_cases hzy : z.toNat < y.toNat
                  · rw [if_neg hyz, if_pos hzy] at h2
                    exact absurd h2 (by decide)
                  · rw [if_pos (show x.toNat < z.toNat by omega)]
              · by_cases hyx : y.toNat < x.toNat
                · rw [if_neg hxy, if_pos hyx] at h1
                  exact absurd h1 (by decide)
                · rw [if_neg hxy, if_neg hyx] at h1
                  by_cases hyz : y.toNat < z.toNat
                  · rw [if_pos (show x.toNat < z.toNat by omega)]
                  · by_cases hzy : z.toNat < y.toNat
                    · rw [if_neg hyz, if_pos hzy] at h2
                      exact absurd h2 (by decide)
                    · rw [if_neg hyz, if_neg hzy] at h2
                      rw [if_neg (show ¬ x.toNat < z.toNat by omega),
                        if_neg (show ¬ z.toNat < x.toNat by omega)]
                      exact ih ys zs h1 h2

/-! ## Lemmas: extensions exclude .json -/

theorem pySuffix_no_dot (s : String) (h : '.' ∉ s.data) : pySuffix s = "" := by
  have hd : s.data.reverse.dropWhile notDot = [] := by
    rw [List.dropWhile_eq_nil_iff]
    intro x hx
    have hxm : x ∈ s.data := List.mem_reverse.mp hx
    simp only [notDot, Bool.not_eq_true', decide_eq_false_iff_not]
    intro hdot
    subst hdot
    exact h hxm
  unfold pySuffix
  simp only [hd]

theorem pySuffix_endsWith_json (s : String) (h : pyEndsWith s ".json" = true) :
    pySuffix s = ".json" ∨ pySuffix s = "" := by
  unfold pyEndsWith at h
  rw [List.isPrefixOf_iff_prefix] at h
  obtain ⟨t, ht⟩ := h
  have hrev : s.data.reverse = ['n', 'o', 's', 'j', '.'] ++ t := by
    rw [← ht]; rfl
  unfold pySuffix
  rw [hrev]
  cases t with
  | nil => right; rfl
  | cons u us => left; rfl

theorem joinPath_last_suffix (p : List String) (hp : p ≠ []) :
    (p.getLastD "").data <:+ (joinPath p).data := by
  induction p with
  | nil => exact absurd rfl hp
  | cons x rest ih =>
      cases rest with
      | nil => simp [joinPath]
      | cons y ys =>
          have hx := ih (by simp)
          have hdata : (joinPath (x :: y :: ys)).data =
              x.data ++ '/' :: (joinPath (y :: ys)).data := by
            show (x ++ "/" ++ joinPath (y :: ys)).data = _
            rw [data_append, data_append, List.append_assoc]
            rfl
          rw [hdata]
          simp only [List.getLastD_cons] at hx ⊢
          exact hx.trans ((List.suffix_cons '/' _).trans
            (List.suffix_append _ _))

theorem prefix_of_prefix_append (a b c : List Char) (h : a <+: b ++ c)
    (hl : a.length ≤ b.length) : a <+: b := by
  rw [List.prefix_iff_eq_take] at h
  rw [List.take_append_eq_append_take, Nat.sub_eq_zero_of_le hl,
    List.take_zero, List.append_nil] at h
  rw [h]
  exact List.take_prefix _ _

theorem matching_not_endsWith_json (p : List String)
    (h : exts.contains (pySuffix (p.getLastD "")) = true) :
    pyEndsWith (joinPath p) ".json" = false := by
  have hpne : p ≠ [] := by
    intro hp
    subst hp
    simp [exts, pySuffix] at h
  by_contra hj
  rw [Bool.not_eq_false] at hj
  unfold pyEndsWith at hj
  rw [List.isPrefixOf_iff_prefix] at hj
  obtain ⟨pre, hpre⟩ := joinPath_last_suffix p hpne
  have hjp : (".json" : String).data.reverse <+: (joinPath p).data.reverse := hj
  by_cases hlen : 5 ≤ (p.getLastD "").data.length
  · have hsub : (".json" : String).data.reverse <+: (p.getLastD "").data.reverse := by
      apply prefix_of_prefix_append _ _ pre.reverse
      · rw [← List.reverse_append, hpre]
        exact hjp
      · rw [List.length_reverse, List.length_reverse]
        exact hlen
    have hends : pyEndsWith (p.getLastD "") ".json" = true := by
      unfold pyEndsWith
      rw [List.isPrefixOf_iff_prefix]
      exact hsub
    rcases pySuffix_endsWith_json _ hends with he | he <;>
      rw [he] at h <;> exact absurd h (by decide)
  · push_neg at hlen
    have hldp : (p.getLastD "").data.reverse <+: (joinPath p).data.reverse := by
      rw [← hpre, List.reverse_append]
      exact List.prefix_append _ _
    have hor := List.prefix_or_prefix_of_prefix hldp hjp
    have hlast : (p.getLastD "").data.reverse <+: (".json" : String).data.reverse := by
      rcases hor with h2 | h2
      · exact h2
      · have hle := h2.length_le
        rw [List.length_reverse, List.length_reverse] at hle
        have h5 : (".json" : String).data.length = 5 := rfl
        rw [h5] at hle
        exact absurd hle (by omega)
    have hshort : (p.getLastD "").data.reverse <+: ['n', 'o', 's', 'j'] := by
      apply prefix_of_prefix_append _ _ ['.']
      · exact hlast
      · rw [List.length_reverse]
        exact Nat.le_of_lt_succ hlen
    have hnodot : '.' ∉ (p.getLastD "").data := by
      intro hd
      have : '.' ∈ (['n', 'o', 's', 'j'] : List Char) :=
        hshort.subset (List.mem_reverse.mpr hd)
      simp at this
    rw [pySuffix_no_dot _ hnodot] at h
    exact absurd h (by decide)

/-! ## Run inversion helpers -/

theorem archivePhase_exit_codes (cwd5 : FS) (repoName keepName : String)
    (keepPath : List String) (o : Oracle) (today : String) (mf : Manifest)
    (c : Nat) (st : FS) (m : Option Manifest) (a : Option ArchiveInfo)
    (h : archivePhase cwd5 repoName keepName keepPath o today mf =
      .exited c st m a) :
    c = 0 ∨ c = 9 := by
  unfold archivePhase at h
  split at h
  · cases h; simp
  · cases h; simp

theorem manifestPhase_exit_codes (cwd4 : FS) (repoName keepName : String)
    (keepPath : List String) (version : String) (o : Oracle) (today : String)
    (c : Nat) (st : FS) (m : Option Manifest) (a : Option ArchiveInfo)
    (h : manifestPhase cwd4 repoName keepName keepPath version o today =
      .exited c st m a) :
    c = 0 ∨ c = 8 ∨ c = 9 := by
  unfold manifestPhase at h
  split at h
  · cases h; simp
  · rcases archivePhase_exit_codes _ _ _ _ _ _ _ _ _ _ _ h with h1 | h1 <;>
      simp [h1]

theorem restorePhase_exit_codes (cwd2 : FS) (repoName keepName tempName : String)
    (keepPath : List String) (version : String) (o : Oracle) (today : String)
    (c : Nat) (st : FS) (m : Option Manifest) (a : Option ArchiveInfo)
    (h : restorePhase cwd2 repoName keepName tempName keepPath version o
      today = .exited c st m a) :
    c = 0 ∨ c = 7 ∨ c = 8 ∨ c = 9 := by
  unfold restorePhase at h
  repeat' split at h
  · cases h
  · cases h; simp
  · cases h; simp
  · rcases manifestPhase_exit_codes _ _ _ _ _ _ _ _ _ _ _ h with h1 | h1 | h1 <;>
      simp [h1]

theorem phase2_exit_codes (cwdA : FS) (repoName : String)
    (keepPath : List String) (version : String) (o : Oracle) (today : String)
    (c : Nat) (st : FS) (m : Option Manifest) (a : Option ArchiveInfo)
    (h : phase2 cwdA repoName keepPath version o today = .exited c st m a) :
    c = 0 ∨ c = 5 ∨ c = 6 ∨ c = 7 ∨ c = 8 ∨ c = 9 := by
  unfold phase2 at h
  split at h
  · split at h
    · cases h; simp
    · split at h
      · cases h; simp
      · rcases restorePhase_exit_codes _ _ _ _ _ _ _ _ _ _ _ _ h with
          h1 | h1 | h1 | h1 <;> simp [h1]
  · cases h; simp

theorem runMain_invalid (cwd : FS) (rawUrl : String) (keepPath : List String)
    (version : String) (o : Oracle) (today : String)
    (hv : is_valid_url (normalize_repo_url rawUrl) = false) :
    runMain cwd rawUrl keepPath version o today = .exited 2 cwd none none := by
  simp [runMain, hv]

theorem runMain_valid (cwd : FS) (rawUrl : String) (keepPath : List String)
    (version : String) (o : Oracle) (today : String)
    (hv : is_valid_url (normalize_repo_url rawUrl) = true) :
    runMain cwd rawUrl keepPath version o today =
      match acquireStep cwd (repoNameOf (normalize_repo_url rawUrl)) o with
      | .error r => r
      | .ok cwdA =>
          phase2 cwdA (repoNameOf (normalize_repo_url rawUrl)) keepPath
            version o today := by
  simp [runMain, hv]

/-! ## C4: invalid references exit with status 2 and touch nothing -/

/-- C4: when the normalized reference has a scheme other than http or
https, or an empty authority, the run terminates with exit status 2 and
the filesystem it returns is exactly the initial one: no directory was
created, moved, deleted or written. -/
theorem claim_C4_invalid_reference (cwd : FS) (rawUrl : String)
    (keepPath : List String) (version : String) (o : Oracle) (today : String)
    (h : (urlScheme (normalize_repo_url rawUrl) ≠ "http" ∧
          urlScheme (normalize_repo_url rawUrl) ≠ "https") ∨
         urlNetloc (normalize_repo_url rawUrl) = "") :
    runMain cwd rawUrl keepPath version o today = .exited 2 cwd none none := by
  apply runMain_invalid
  unfold is_valid_url
  rcases h with ⟨h1, h2⟩ | h3
  · simp [h1, h2]
  · simp [h3]

/-- Witness for C4: an ftp reference is rejected with status 2 on an
untouched filesystem. -/
theorem claim_C4_witness :
    runMain (.dir [("x", .file)]) "ftp://host/proj" ["src"] "1.0"
      ⟨.exitNonzero, false, fun _ => false, false, false, false⟩ "20260101" =
      .exited 2 (.dir [("x", .file)]) none none :=
  claim_C4_invalid_reference _ _ _ _ _ _ (by decide)

/-! ## C8: a missing keep path exits with status 5 after acquisition -/

/-- C8: when the keep path does not resolve to an existing directory
inside the working directory after acquisition, the run exits with
status 5 and the filesystem is exactly the post-acquisition state: no
move, deletion or write has occurred. -/
theorem claim_C8_keep_path_missing (cwd : FS) (rawUrl : String)
    (keepPath : List String) (version : String) (o : Oracle) (today : String)
    (cwdA : FS)
    (hv : is_valid_url (normalize_repo_url rawUrl) = true)
    (hacq : acquireStep cwd (repoNameOf (normalize_repo_url rawUrl)) o =
      .ok cwdA)
    (hmiss : cwdA.isDirAt
      (repoNameOf (normalize_repo_url rawUrl) :: keepPath) = false) :
    runMain cwd rawUrl keepPath version o today = .exited 5 cwdA none none := by
  rw [runMain_valid _ _ _ _ _ _ hv, hacq]
  simp [phase2, hmiss]

/-- Witness for C8: a repo without the requested subdirectory ends at
status 5 with only the clone in place. -/
theorem claim_C8_witness :
    runMain (.dir []) "https://h/r" ["src"] "1.0"
      ⟨.ok (.dir [(".git", .dir [])]), false, fun _ => false, false, false,
        false⟩ "20260101" =
      .exited 5 (.dir [("r", .dir [(".git", .dir [])])]) none none :=
  claim_C8_keep_path_missing _ _ _ _ _ _ _ (by decide) (by rfl) (by rfl)

/-! ## C9: exit status 4 characterizes a failed clone subprocess -/

/-- C9: exit status 4 arises exactly when the clone subprocess was
launched and exited non-zero, with the initial filesystem returned
untouched; when the git executable is absent (FileNotFoundError), the
exception is not caught and the run ends as an uncaught exception, not
as a status-4 exit. -/
theorem claim_C9_clone_failure_modes (cwd : FS) (rawUrl : String)
    (keepPath : List String) (version : String) (o : Oracle) (today : String) :
    (∀ st m a, runMain cwd rawUrl keepPath version o today =
        .exited 4 st m a ↔
      is_valid_url (normalize_repo_url rawUrl) = true ∧
      cwd.lookup [repoNameOf (normalize_repo_url rawUrl)] = none ∧
      o.clone = .exitNonzero ∧ st = cwd ∧ m = none ∧ a = none) ∧
    (is_valid_url (normalize_repo_url rawUrl) = true →
      cwd.lookup [repoNameOf (normalize_repo_url rawUrl)] = none →
      o.clone = .gitMissing →
      runMain cwd rawUrl keepPath version o today = .uncaught cwd) := by
  constructor
  · intro st m a
    constructor
    · intro h
      cases hv : is_valid_url (normalize_repo_url rawUrl) with
      | false =>
          rw [runMain_invalid _ _ _ _ _ _ hv] at h
          simp at h
      | true =>
          rw [runMain_valid _ _ _ _ _ _ hv] at h
          refine ⟨rfl, ?_⟩
          unfold acquireStep at h
          cases hl : cwd.lookup [repoNameOf (normalize_repo_url rawUrl)] with
          | some t =>
              rw [hl] at h
              dsimp only [] at h
              by_cases hg : (t.lookup [".git"]).isNone = true
              · rw [if_pos hg] at h
                simp at h
              · rw [if_neg hg] at h
                rcases phase2_exit_codes _ _ _ _ _ _ _ _ _ _ h with
                  h4 | h4 | h4 | h4 | h4 | h4 <;> omega
          | none =>
              rw [hl] at h
              dsimp only [] at h
              cases hc : o.clone with
              | gitMissing => rw [hc] at h; simp at h
              | exitNonzero =>
                  rw [hc] at h
                  dsimp only [] at h
                  injection h with h1 h2 h3 h4
                  exact ⟨rfl, rfl, h2.symm, h3.symm, h4.symm⟩
              | ok repo =>
                  rw [hc] at h
                  dsimp only [] at h
                  rcases phase2_exit_codes _ _ _ _ _ _ _ _ _ _ h with
                    h4 | h4 | h4 | h4 | h4 | h4 <;> omega
    · rintro ⟨hv, hl, hc, rfl, rfl, rfl⟩
      rw [runMain_valid _ _ _ _ _ _ hv]
      unfold acquireStep
      rw [hl, hc]
  · intro hv hl hc
    rw [runMain_valid _ _ _ _ _ _ hv]
    unfold acquireStep
    rw [hl, hc]

/-- Witness for C9: a non-zero clone exit yields status 4, a missing git
executable yields an uncaught exception. -/
theorem claim_C9_witness :
    runMain (.dir []) "https://h/r" ["src"] "1.0"
      ⟨.exitNonzero, false, fun _ => false, false, false, false⟩ "20260101" =
      .exited 4 (.dir []) none none ∧
    runMain (.dir []) "https://h/r" ["src"] "1.0"
      ⟨.gitMissing, false, fun _ => false, false, false, false⟩ "20260101" =
      .uncaught (.dir []) :=
  ⟨((claim_C9_clone_failure_modes _ _ _ _ _ _).1 _ _ _).mpr
      ⟨by decide, by rfl, rfl, rfl, rfl, rfl⟩,
   (claim_C9_clone_failure_modes _ _ _ _ _ _).2 (by decide) (by rfl) rfl⟩

/-- The sample run in full: clone, isolate src, manifest, archive. -/
theorem sampleRun_eq :
    runMain (.dir []) "https://example.com/proj" ["src"] "1.2.3" sampleOracle
      "20260101" =
      .exited 0 sampleFinal
        (some ⟨"hello world", "1.2.3", ["a.py", "sub/b.js"]⟩)
        (some ⟨"src20260101.zip", "src", sampleSubtree⟩) := by
  simp +decide [runMain, phase2, restorePhase, manifestPhase, archivePhase,
    manifestOf, acquireStep, deletePass, sampleOracle, sampleRepo, sampleFinal,
    sampleSubtree, FS.move, FS.lookup, FS.unblocked, FS.setAt, FS.removeAt,
    FS.updateAt, FS.mkdirP, FS.existsAt, FS.isDirAt, childGet, childSet,
    childErase, FS.filePaths, childFilePaths, normalize_repo_url, pyStrip,
    stripChars, isPyWs, pyEndsWith, is_valid_url, urlScheme, urlNetloc,
    urlRest, lowerString, isSchemeChar, repoNameOf, pyStem, pySuffix, notDot,
    pyPathName, pathParts, splitOnChar, joinPath, exts, List.insertionSort,
    List.orderedInsert, pyStrLe, strLeB, List.isPrefixOf]

/-! ## Manifest provenance -/

theorem manifestPhase_manifest (cwd4 : FS) (repoName keepName : String)
    (keepPath : List String) (version : String) (o : Oracle) (today : String)
    (c : Nat) (stF : FS) (m : Manifest) (a : Option ArchiveInfo)
    (h : manifestPhase cwd4 repoName keepName keepPath version o today =
      .exited c stF (some m) a) :
    m = manifestOf ((cwd4.lookup (repoName :: keepPath)).getD (.dir []))
      version := by
  unfold manifestPhase archivePhase at h
  split at h
  · cases h
  · split at h
    · cases h; rfl
    · cases h; rfl

theorem restorePhase_manifest (cwd2 : FS)
    (repoName keepName tempName : String) (keepPath : List String)
    (version : String) (o : Oracle) (today : String)
    (c : Nat) (stF : FS) (m : Manifest) (a : Option ArchiveInfo)
    (h : restorePhase cwd2 repoName keepName tempName keepPath version o
      today = .exited c stF (some m) a) :
    ∃ cwd4 : FS, m =
      manifestOf ((cwd4.lookup (repoName :: keepPath)).getD (.dir []))
        version := by
  unfold restorePhase at h
  split at h
  · cases h
  · split at h
    · cases h
    · split at h
      · cases h
      · exact ⟨_, manifestPhase_manifest _ _ _ _ _ _ _ _ _ _ _ h⟩

theorem runMain_manifest (cwd : FS) (rawUrl : String)
    (keepPath : List String) (version : String) (o : Oracle) (today : String)
    (c : Nat) (stF : FS) (m : Manifest) (a : Option ArchiveInfo)
    (h : runMain cwd rawUrl keepPath version o today =
      .exited c stF (some m) a) :
    ∃ st, m = manifestOf st version := by
  cases hv : is_valid_url (normalize_repo_url rawUrl) with
  | false =>
      rw [runMain_invalid _ _ _ _ _ _ hv] at h
      simp at h
  | true =>
      rw [runMain_valid _ _ _ _ _ _ hv] at h
      cases hacq : acquireStep cwd (repoNameOf (normalize_repo_url rawUrl))
          o with
      | error r =>
          rw [hacq] at h
          dsimp only [] at h
          unfold acquireStep at hacq
          split at hacq
          · split at hacq
            · cases hacq
              cases h
            · cases hacq
          · split at hacq
            · cases hacq
              cases h
            · cases hacq
              cases h
            · cases hacq
      | ok cwdA =>
          rw [hacq] at h
          dsimp only [] at h
          unfold phase2 at h
          split at h
          · split at h
            · cases h
            · split at h
              · cases h
              · obtain ⟨cwd4, hm⟩ :=
                  restorePhase_manifest _ _ _ _ _ _ _ _ _ _ _ _ h
                exact ⟨_, hm⟩
          · cases h

/-! ## C10: no .json file can appear in the manifest -/

/-- C10: when a run produces a manifest object, no entry of its files
list names a .json file: every listed path fails the endswith-.json test
(so in particular version.json is never listed), because .json is not in
the recognized extension set of the walk. -/
theorem claim_C10_no_json_listed (cwd : FS) (rawUrl : String)
    (keepPath : List String) (version : String) (o : Oracle) (today : String)
    (c : Nat) (stF : FS) (m : Manifest) (a : Option ArchiveInfo)
    (h : runMain cwd rawUrl keepPath version o today =
      .exited c stF (some m) a) :
    (∀ s ∈ m.files, pyEndsWith s ".json" = false) ∧
    "version.json" ∉ m.files := by
  obtain ⟨st, hm⟩ := runMain_manifest _ _ _ _ _ _ _ _ _ _ h
  subst hm
  have hmem : ∀ s ∈ (manifestOf st version).files,
      pyEndsWith s ".json" = false := by
    intro s hs
    unfold manifestOf at hs
    have hs2 := (List.perm_insertionSort pyStrLe _).mem_iff.mp hs
    obtain ⟨p, hp, rfl⟩ := List.mem_map.mp hs2
    have hf := (List.mem_filter.mp hp).2
    exact matching_not_endsWith_json p hf
  refine ⟨hmem, fun hv => ?_⟩
  have := hmem _ hv
  rw [show pyEndsWith "version.json" ".json" = true from rfl] at this
  cases this

/-- Witness for C10 on the sample run: the produced files list contains
no .json entry and not the manifest itself. -/
theorem claim_C10_witness :
    (∀ s ∈ (Manifest.files ⟨"hello world", "1.2.3", ["a.py", "sub/b.js"]⟩),
      pyEndsWith s ".json" = false) ∧
    "version.json" ∉
      (Manifest.files ⟨"hello world", "1.2.3", ["a.py", "sub/b.js"]⟩) :=
  claim_C10_no_json_listed (.dir []) "https://example.com/proj" ["src"]
    "1.2.3" sampleOracle "20260101" 0 sampleFinal _
    (some ⟨"src20260101.zip", "src", sampleSubtree⟩) sampleRun_eq

/-! ## Inversion of a successful run -/

theorem runMain_success_inversion (cwd : FS) (rawUrl : String)
    (keepPath : List String) (version : String) (o : Oracle) (today : String)
    (stF : FS) (m : Manifest) (a : ArchiveInfo)
    (h : runMain cwd rawUrl keepPath version o today =
      .exited 0 stF (some m) (some a)) :
    ∃ (repoName keepName tempName zipName : String)
      (cwdA cwd1 cwd3 cwd4 cwd5 : FS),
      repoName = repoNameOf (normalize_repo_url rawUrl) ∧
      keepName = keepPath.getLastD repoName ∧
      tempName = ".keep_temp_" ++ keepName ∧
      zipName = keepName ++ today ++ ".zip" ∧
      cwd5 = cwd4.setAt (repoName :: (keepPath ++ ["version.json"])) .file ∧
      is_valid_url (normalize_repo_url rawUrl) = true ∧
      acquireStep cwd repoName o = .ok cwdA ∧
      cwdA.isDirAt (repoName :: keepPath) = true ∧
      o.moveTempFails = false ∧
      cwdA.move (repoName :: keepPath) [repoName, tempName] = some cwd1 ∧
      (deletePass cwd1 repoName tempName o.deleteFails).mkdirP
        (repoName :: keepPath.dropLast) = some cwd3 ∧
      o.moveBackFails = false ∧
      cwd3.move [repoName, tempName] (repoName :: keepPath) = some cwd4 ∧
      (o.writeFails ||
        cwd4.isDirAt (repoName :: (keepPath ++ ["version.json"]))) = false ∧
      m = manifestOf ((cwd4.lookup (repoName :: keepPath)).getD (.dir []))
        version ∧
      (o.archiveFails || cwd5.isDirAt [zipName]) = false ∧
      a = ⟨zipName, keepName,
        (cwd5.lookup (repoName :: keepPath)).getD (.dir [])⟩ ∧
      stF = cwd5.setAt [zipName] .file := by
  cases hv : is_valid_url (normalize_repo_url rawUrl) with
  | false => rw [runMain_invalid _ _ _ _ _ _ hv] at h; simp at h
  | true =>
    rw [runMain_valid _ _ _ _ _ _ hv] at h
    cases hacq : acquireStep cwd (repoNameOf (normalize_repo_url rawUrl))
        o with
    | error r =>
        rw [hacq] at h
        dsimp only [] at h
        unfold acquireStep at hacq
        split at hacq
        · split at hacq
          · cases hacq
            cases h
          · cases hacq
        · split at hacq
          · cases hacq
            cases h
          · cases hacq
            cases h
          · cases hacq
    | ok cwdA =>
        rw [hacq] at h
        dsimp only [] at h
        unfold phase2 at h
        cases hdir : cwdA.isDirAt
            (repoNameOf (normalize_repo_url rawUrl) :: keepPath) with
        | false =>
            rw [hdir] at h
            simp at h
        | true =>
            rw [hdir, if_pos rfl] at h
            cases hmt : o.moveTempFails with
            | true => rw [hmt, if_pos rfl] at h; cases h
            | false =>
                rw [hmt, if_neg (by decide)] at h
                cases hmv : cwdA.move
                    (repoNameOf (normalize_repo_url rawUrl) :: keepPath)
                    [repoNameOf (normalize_repo_url rawUrl),
                     ".keep_temp_" ++ keepPath.getLastD
                       (repoNameOf (normalize_repo_url rawUrl))] with
                | none => rw [hmv] at h; cases h
                | some cwd1 =>
                    rw [hmv] at h
                    dsimp only [] at h
                    unfold restorePhase at h
                    cases hmk : (deletePass cwd1
                        (repoNameOf (normalize_repo_url rawUrl))
                        (".keep_temp_" ++ keepPath.getLastD
                          (repoNameOf (normalize_repo_url rawUrl)))
                        o.deleteFails).mkdirP
                        (repoNameOf (normalize_repo_url rawUrl) ::
                          keepPath.dropLast) with
                    | none => rw [hmk] at h; cases h
                    | some cwd3 =>
                        rw [hmk] at h
                        dsimp only [] at h
                        cases hmb : o.moveBackFails with
                        | true => rw [hmb, if_pos rfl] at h; cases h
                        | false =>
                            rw [hmb, if_neg (by decide)] at h
                            cases hmv2 : cwd3.move
                                [repoNameOf (normalize_repo_url rawUrl),
                                 ".keep_temp_" ++ keepPath.getLastD
                                   (repoNameOf (normalize_repo_url rawUrl))]
                                (repoNameOf (normalize_repo_url rawUrl) ::
                                  keepPath) with
                            | none => rw [hmv2] at h; cases h
                            | some cwd4 =>
                                rw [hmv2] at h
                                dsimp only [] at h
                                unfold manifestPhase at h
                                cases hwr : (o.writeFails ||
                                    cwd4.isDirAt
                                      (repoNameOf (normalize_repo_url rawUrl)
                                        :: (keepPath ++ ["version.json"])))
                                    with
                                | true => rw [hwr, if_pos rfl] at h; cases h
                                | false =>
                                    rw [hwr, if_neg (by decide)] at h
                                    unfold archivePhase at h
                                    cases har : (o.archiveFails ||
                                        (cwd4.setAt
                                          (repoNameOf (normalize_repo_url
                                            rawUrl) ::
                                            (keepPath ++ ["version.json"]))
                                          .file).isDirAt
                                          [keepPath.getLastD
                                            (repoNameOf (normalize_repo_url
                                              rawUrl)) ++ today ++ ".zip"])
                                        with
                                    | true =>
                                        rw [har, if_pos rfl] at h
                                        cases h
                                    | false =>
                                        rw [har, if_neg (by decide)] at h
                                        cases h
                                        exact ⟨_, _, _, _, cwdA, cwd1, cwd3,
                                          cwd4, _, rfl, rfl, rfl, rfl, rfl,
                                          rfl, hacq, hdir, rfl, hmv, hmk, rfl,
                                          hmv2, hwr, rfl, har, rfl, rfl⟩

/-! ## Move elimination -/

theorem FS.move_elim (t : FS) (src dst : List String) (t2 : FS)
    (h : t.move src dst = some t2) :
    ∃ node, t.lookup src = some node ∧
      t.existsAt (moveDst t src dst) = false ∧
      src.isPrefixOf (moveDst t src dst) = false ∧
      (t.removeAt src).unblocked (moveDst t src dst) = true ∧
      t2 = (t.removeAt src).setAt (moveDst t src dst) node := by
  unfold FS.move at h
  cases hl : t.lookup src with
  | none => rw [hl] at h; cases h
  | some node =>
      rw [hl] at h
      dsimp only [] at h
      refine ⟨node, rfl, ?_⟩
      split at h
      · cases h
      · split at h
        · cases h
        · split at h
          · cases h
            rename_i hex hpre hub
            exact ⟨by rw [← Bool.not_eq_true]; exact hex,
              by rw [← Bool.not_eq_true]; exact hpre, hub, rfl⟩
          · cases h

theorem FS.lookup_setAt_prefix (t : FS) (p r : List String) (v : FS)
    (h : t.unblocked (p ++ r) = true) :
    ∃ u, (t.setAt (p ++ r) v).lookup p = some u := by
  induction p generalizing t with
  | nil => exact ⟨t.setAt ([] ++ r) v, by simp [FS.lookup]⟩
  | cons n prest ih =>
      cases t with
      | file => simp [FS.unblocked] at h
      | dir cs =>
          simp only [List.cons_append, FS.unblocked] at h
          cases hc : childGet cs n with
          | none =>
              obtain ⟨u, hu⟩ := ih (FS.dir []) (FS.unblocked_dirNil _)
              exact ⟨u, by simp [FS.setAt, hc, FS.lookup, childGet_childSet, hu]⟩
          | some c =>
              rw [hc] at h
              obtain ⟨u, hu⟩ := ih c h
              exact ⟨u, by simp [FS.setAt, hc, FS.lookup, childGet_childSet, hu]⟩

theorem FS.move_lookup_dst (t : FS) (src dst : List String) (t2 : FS)
    (h : t.move src dst = some t2) : ∃ u, t2.lookup dst = some u := by
  obtain ⟨node, hl, hex, hpre, hub, ht2⟩ := FS.move_elim t src dst t2 h
  subst ht2
  unfold moveDst at hub ⊢
  by_cases hd : t.isDirAt dst = true
  · rw [if_pos hd] at hub ⊢
    exact FS.lookup_setAt_prefix _ _ _ _ hub
  · rw [if_neg hd] at hub ⊢
    exact ⟨node, FS.lookup_setAt_self _ _ _ hub⟩

/-! ## More path and well-formedness facts -/

theorem wf_acquire (cwd : FS) (repoName : String) (o : Oracle) (cwdA : FS)
    (hwf : cwd.wfB = true) (hwfc : ∀ r, o.clone = .ok r → r.wfB = true)
    (h : acquireStep cwd repoName o = .ok cwdA) : cwdA.wfB = true := by
  unfold acquireStep at h
  split at h
  · split at h
    · cases h
    · cases h
      exact hwf
  · split at h
    · cases h
    · cases h
    · cases h
      rename_i repo hrepo
      exact FS.wf_setAt _ _ _ hwf (hwfc repo hrepo)

theorem wf_deletePass (cwd1 : FS) (repoName tempName : String)
    (fails : String → Bool) (hwf : cwd1.wfB = true) :
    (deletePass cwd1 repoName tempName fails).wfB = true := by
  unfold deletePass
  apply FS.wf_updateAt _ _ _ hwf
  intro u hu
  cases u with
  | file => exact hu
  | dir cs =>
      rw [wfB_dir, Bool.and_eq_true] at hu ⊢
      exact ⟨by simpa using nodup_keys_filter cs _ (by simpa using hu.1),
        childrenWfB_filter cs _ hu.2⟩

theorem FS.lookup_setAt_append (t : FS) (p q : List String) (u v : FS)
    (h : t.lookup p = some u) :
    (t.setAt (p ++ q) v).lookup p = some (u.setAt q v) := by
  induction p generalizing t with
  | nil =>
      simp only [FS.lookup, Option.some.injEq] at h
      subst h
      simp [FS.lookup]
  | cons n rest ih =>
      cases t with
      | file => simp [FS.lookup] at h
      | dir cs =>
          cases hc : childGet cs n with
          | none => simp [FS.lookup, hc] at h
          | some c =>
              simp only [FS.lookup, hc] at h
              have hx := ih c h
              simp [FS.setAt, hc, FS.lookup, childGet_childSet, hx]

theorem FS.isDirAt_singleton_of_lookup_cons (t : FS) (n : String)
    (rest : List String) (u : FS) (h : t.lookup (n :: rest) = some u)
    (hne : rest ≠ []) : t.isDirAt [n] = true := by
  cases t with
  | file => simp [FS.lookup] at h
  | dir cs =>
      cases hc : childGet cs n with
      | none => simp [FS.lookup, hc] at h
      | some c =>
          simp only [FS.lookup, hc] at h
          cases c with
          | file =>
              cases rest with
              | nil => exact absurd rfl hne
              | cons a b => simp [FS.lookup] at h
          | dir cs2 => simp [FS.isDirAt, FS.lookup, hc]

/-! ## C1: the manifest lists exactly the matching files, sorted -/

/-- C1: on every successful run (initial tree and cloned tree
well-formed), there is a subtree state st — the preserved subtree at
manifest-build time, recovered in the final filesystem at the keep path
with only version.json added — such that the manifest's files list is
sorted ascending in the Python string order and contains exactly the
slash-joined relative paths of the regular files of st whose pathlib
suffix is in the recognized set, and the manifest file itself is never
listed (it is written only after the walk completes). -/
theorem claim_C1_manifest_exact (cwd : FS) (rawUrl : String)
    (keepPath : List String) (version : String) (o : Oracle) (today : String)
    (stF : FS) (m : Manifest) (a : ArchiveInfo)
    (hwf : cwd.wfB = true)
    (hwfc : ∀ r, o.clone = .ok r → r.wfB = true)
    (h : runMain cwd rawUrl keepPath version o today =
      .exited 0 stF (some m) (some a)) :
    ∃ st : FS,
      stF.lookup (repoNameOf (normalize_repo_url rawUrl) :: keepPath) =
        some (st.setAt ["version.json"] .file) ∧
      List.Sorted pyStrLe m.files ∧
      (∀ s, s ∈ m.files ↔ ∃ p : List String, p ≠ [] ∧
        st.lookup p = some .file ∧
        exts.contains (pySuffix (p.getLastD "")) = true ∧ s = joinPath p) ∧
      "version.json" ∉ m.files := by
  obtain ⟨repoName, keepName, tempName, zipName, cwdA, cwd1, cwd3, cwd4, cwd5,
    hrn, hkn, htn, hzn, hc5, hv, hacq, hdir, hmt, hmv, hmk, hmb, hmv2, hwr,
    hm, har, ha, hstF⟩ := runMain_success_inversion _ _ _ _ _ _ _ _ _ h
  subst hrn
  subst hkn
  subst htn
  subst hzn
  subst hc5
  subst hstF
  have hkne : keepPath ≠ [] := by
    intro hk
    subst hk
    obtain ⟨node, hl2, hex2, hpre2, hub2, ht22⟩ := FS.move_elim _ _ _ _ hmv
    unfold moveDst at hpre2
    split at hpre2 <;> simp [List.isPrefixOf] at hpre2
  obtain ⟨st, hst⟩ := FS.move_lookup_dst _ _ _ _ hmv2
  have hwfA := wf_acquire _ _ _ _ hwf hwfc hacq
  have hwf1 := FS.wf_move _ _ _ _ hwfA hmv
  have hwf2 := wf_deletePass cwd1 (repoNameOf (normalize_repo_url rawUrl))
    (".keep_temp_" ++
      keepPath.getLastD (repoNameOf (normalize_repo_url rawUrl)))
    o.deleteFails hwf1
  have hwf3 := FS.wf_mkdirP _ _ _ hwf2 hmk
  have hwf4 := FS.wf_move _ _ _ _ hwf3 hmv2
  have hwfst := FS.wf_lookup _ _ _ hwf4 hst
  rw [hst] at hm
  simp only [Option.getD_some] at hm
  have hwrite : ((cwd4.setAt (repoNameOf (normalize_repo_url rawUrl) ::
      (keepPath ++ ["version.json"])) .file).lookup
      (repoNameOf (normalize_repo_url rawUrl) :: keepPath)) =
      some (st.setAt ["version.json"] .file) := by
    have hx := FS.lookup_setAt_append cwd4
      (repoNameOf (normalize_repo_url rawUrl) :: keepPath) ["version.json"]
      st .file hst
    simpa using hx
  have hzr : keepPath.getLastD (repoNameOf (normalize_repo_url rawUrl)) ++
      today ++ ".zip" ≠ repoNameOf (normalize_repo_url rawUrl) := by
    intro hz
    rw [Bool.or_eq_false_iff] at har
    have hdir5 : (cwd4.setAt (repoNameOf (normalize_repo_url rawUrl) ::
        (keepPath ++ ["version.json"])) .file).isDirAt
        [repoNameOf (normalize_repo_url rawUrl)] = true := by
      cases keepPath with
      | nil => exact absurd rfl hkne
      | cons k1 krest =>
          exact FS.isDirAt_singleton_of_lookup_cons _ _ _ _ hwrite (by simp)
    rw [hz] at har
    rw [hdir5] at har
    exact absurd har.2 (by decide)
  refine ⟨st, ?_, ?_, ?_, ?_⟩
  · rw [FS.lookup_setAt_diverge]
    · exact hwrite
    · intro hp
      exact hzr (List.cons_prefix_cons.mp hp).1
    · intro hp
      have hple := hp.length_le
      cases keepPath with
      | nil => exact absurd rfl hkne
      | cons k1 krest => simp at hple
  · rw [hm]
    unfold manifestOf
    exact @List.sorted_insertionSort String pyStrLe _
      ⟨fun a b => strLeB_total a.data b.data⟩
      ⟨fun a b c hab hbc => strLeB_trans a.data b.data c.data hab hbc⟩ _
  · intro s
    rw [hm]
    unfold manifestOf
    constructor
    · intro hs
      have hs2 := (List.perm_insertionSort pyStrLe _).mem_iff.mp hs
      obtain ⟨p, hp, rfl⟩ := List.mem_map.mp hs2
      obtain ⟨hpf, hpP⟩ := List.mem_filter.mp hp
      obtain ⟨hne, hl⟩ := (FS.mem_filePaths st hwfst p).mp hpf
      exact ⟨p, hne, hl, hpP, rfl⟩
    · rintro ⟨p, hne, hl, hP, rfl⟩
      apply (List.perm_insertionSort pyStrLe _).mem_iff.mpr
      apply List.mem_map.mpr
      refine ⟨p, List.mem_filter.mpr ⟨?_, hP⟩, rfl⟩
      exact (FS.mem_filePaths st hwfst p).mpr ⟨hne, hl⟩
  · intro hv2
    rw [hm] at hv2
    unfold manifestOf at hv2
    have hs2 := (List.perm_insertionSort pyStrLe _).mem_iff.mp hv2
    obtain ⟨p, hp, hjp⟩ := List.mem_map.mp hs2
    have hP := (List.mem_filter.mp hp).2
    have hj := matching_not_endsWith_json p hP
    rw [hjp] at hj
    rw [show pyEndsWith "version.json" ".json" = true from rfl] at hj
    cases hj

/-- Witness for C1 at the sample run. -/
theorem claim_C1_witness :
    ∃ st : FS,
      sampleFinal.lookup
        (repoNameOf (normalize_repo_url "https://example.com/proj") ::
          ["src"]) = some (st.setAt ["version.json"] .file) ∧
      List.Sorted pyStrLe
        (Manifest.files ⟨"hello world", "1.2.3", ["a.py", "sub/b.js"]⟩) ∧
      (∀ s, s ∈
          (Manifest.files ⟨"hello world", "1.2.3", ["a.py", "sub/b.js"]⟩) ↔
        ∃ p : List String, p ≠ [] ∧ st.lookup p = some .file ∧
          exts.contains (pySuffix (p.getLastD "")) = true ∧ s = joinPath p) ∧
      "version.json" ∉
        (Manifest.files ⟨"hello world", "1.2.3", ["a.py", "sub/b.js"]⟩) :=
  claim_C1_manifest_exact (.dir []) "https://example.com/proj" ["src"]
    "1.2.3" sampleOracle "20260101" sampleFinal _
    ⟨"src20260101.zip", "src", sampleSubtree⟩
    (by simp [FS.wfB, childrenWfB])
    (fun r hr => by
      simp [sampleOracle] at hr
      rw [← hr]
      simp [sampleRepo, FS.wfB, childrenWfB])
    sampleRun_eq

/-! ## Tracking the subtree through the stages -/

theorem FS.isDirAt_elim (t : FS) (p : List String)
    (h : t.isDirAt p = true) : ∃ cs, t.lookup p = some (.dir cs) := by
  unfold FS.isDirAt at h
  cases hl : t.lookup p with
  | none => rw [hl] at h; cases h
  | some u =>
      cases u with
      | file => rw [hl] at h; cases h
      | dir cs => exact ⟨cs, rfl⟩

theorem FS.isDirAt_intro (t : FS) (p : List String) (cs : List (String × FS))
    (h : t.lookup p = some (.dir cs)) : t.isDirAt p = true := by
  unfold FS.isDirAt
  rw [h]

theorem FS.isDirAt_setAt_strict_prefix (t : FS) (p r : List String) (v : FS)
    (h : t.unblocked (p ++ r) = true) (hr : r ≠ []) :
    (t.setAt (p ++ r) v).isDirAt p = true := by
  induction p generalizing t with
  | nil =>
      cases r with
      | nil => exact absurd rfl hr
      | cons x xs =>
          cases t with
          | file => simp [FS.unblocked] at h
          | dir cs => simp [FS.setAt, FS.isDirAt, FS.lookup]
  | cons n prest ih =>
      cases t with
      | file => simp [FS.unblocked] at h
      | dir cs =>
          simp only [List.cons_append, FS.unblocked] at h
          cases hc : childGet cs n with
          | none =>
              have hx := ih (FS.dir []) (FS.unblocked_dirNil _)
              obtain ⟨cs2, hcs2⟩ := FS.isDirAt_elim _ _ hx
              apply FS.isDirAt_intro _ _ cs2
              simp [FS.setAt, hc, FS.lookup, childGet_childSet, hcs2]
          | some c =>
              rw [hc] at h
              have hx := ih c h
              obtain ⟨cs2, hcs2⟩ := FS.isDirAt_elim _ _ hx
              apply FS.isDirAt_intro _ _ cs2
              simp [FS.setAt, hc, FS.lookup, childGet_childSet, hcs2]

theorem lookup_deletePass (t : FS) (repoName tempName x : String)
    (f : String → Bool) (r : List String) :
    (deletePass t repoName tempName f).lookup (repoName :: x :: r) =
      if x = ".git" ∨ x = tempName ∨ f x = true then
        t.lookup (repoName :: x :: r)
      else none := by
  unfold deletePass
  have h1 : repoName :: x :: r = [repoName] ++ (x :: r) := rfl
  rw [h1, FS.lookup_append, FS.lookup_append, FS.lookup_updateAt_self]
  cases hu : t.lookup [repoName] with
  | none =>
      simp only [Option.map_none', Option.none_bind]
      exact (ite_self none).symm
  | some u =>
      simp only [Option.map_some', Option.some_bind]
      cases u with
      | file =>
          simp only [FS.lookup]
          exact (ite_self (none : Option FS)).symm
      | dir cs2 =>
          simp only [FS.lookup]
          rw [childGet_filterName cs2
            (fun s => s = ".git" || s = tempName || f s) x]
          by_cases hk : x = ".git" ∨ x = tempName ∨ f x = true
          · have hkb : (x = ".git" || x = tempName || f x) = true := by
              rcases hk with hq | hq | hq <;> simp [hq]
            rw [if_pos hkb, if_pos hk]
          · have hkb : ¬ ((x = ".git" || x = tempName || f x) = true) := by
              push_neg at hk
              simp [hk.1, hk.2.1, hk.2.2]
            rw [if_neg hkb, if_neg hk]

theorem FS.isDirAt_mkdirP_preserved (t : FS) (q : List String) (t2 : FS)
    (p : List String) (hm : t.mkdirP q = some t2)
    (h : t.isDirAt p = true) : t2.isDirAt p = true := by
  induction p generalizing t t2 q with
  | nil =>
      cases t with
      | file => simp [FS.isDirAt, FS.lookup] at h
      | dir cs =>
          cases q with
          | nil =>
              simp only [FS.mkdirP, Option.some.injEq] at hm
              rw [← hm]
              exact h
          | cons m qr =>
              cases hc : childGet cs m with
              | none =>
                  cases hmm : (FS.dir []).mkdirP qr with
                  | none =>
                      simp only [FS.mkdirP, hc, hmm] at hm
                      exact Option.noConfusion hm
                  | some c2 =>
                      simp only [FS.mkdirP, hc, hmm, Option.some.injEq] at hm
                      rw [← hm]
                      simp [FS.isDirAt, FS.lookup]
              | some c =>
                  cases hmm : c.mkdirP qr with
                  | none =>
                      simp only [FS.mkdirP, hc, hmm] at hm
                      exact Option.noConfusion hm
                  | some c2 =>
                      simp only [FS.mkdirP, hc, hmm, Option.some.injEq] at hm
                      rw [← hm]
                      simp [FS.isDirAt, FS.lookup]
  | cons n pr ih =>
      cases t with
      | file => simp [FS.isDirAt, FS.lookup] at h
      | dir cs =>
          cases hcn : childGet cs n with
          | none => simp [FS.isDirAt, FS.lookup, hcn] at h
          | some cn =>
              have hdn : cn.isDirAt pr = true := by
                simpa [FS.isDirAt, FS.lookup, hcn] using h
              cases q with
              | nil =>
                  simp only [FS.mkdirP, Option.some.injEq] at hm
                  rw [← hm]
                  exact h
              | cons m qr =>
                  by_cases hnm : n = m
                  · subst hnm
                    cases hmm : cn.mkdirP qr with
                    | none =>
                        simp only [FS.mkdirP, hcn, hmm] at hm
                        exact Option.noConfusion hm
                    | some c2 =>
                        simp only [FS.mkdirP, hcn, hmm, Option.some.injEq] at hm
                        rw [← hm]
                        have hx := ih cn qr c2 hmm hdn
                        simpa [FS.isDirAt, FS.lookup, childGet_childSet]
                          using hx
                  · cases hcm : childGet cs m with
                    | none =>
                        cases hmm : (FS.dir []).mkdirP qr with
                        | none =>
                            simp only [FS.mkdirP, hcm, hmm] at hm
                            exact Option.noConfusion hm
                        | some c2 =>
                            simp only [FS.mkdirP, hcm, hmm,
                              Option.some.injEq] at hm
                            rw [← hm]
                            simpa [FS.isDirAt, FS.lookup, childGet_childSet,
                              fun hh : n = m => hnm hh] using h
                    | some cm =>
                        cases hmm : cm.mkdirP qr with
                        | none =>
                            simp only [FS.mkdirP, hcm, hmm] at hm
                            exact Option.noConfusion hm
                        | some c2 =>
                            simp only [FS.mkdirP, hcm, hmm,
                              Option.some.injEq] at hm
                            rw [← hm]
                            simpa [FS.isDirAt, FS.lookup, childGet_childSet,
                              fun hh : n = m => hnm hh] using h

theorem FS.unblocked_singleton (cs : List (String × FS)) (x : String) :
    (FS.dir cs).unblocked [x] = true := by
  simp only [FS.unblocked]
  cases childGet cs x with
  | none => rfl
  | some c => cases c <;> rfl

theorem FS.unblocked_singleton_of_lookup_cons (t : FS) (n : String)
    (rest : List String) (u : FS) (x : String)
    (h : t.lookup (n :: rest) = some u) : t.unblocked [x] = true := by
  cases t with
  | file => simp [FS.lookup] at h
  | dir cs => exact FS.unblocked_singleton cs x

theorem temp_isDir (cwdA cwd1 cwd3 : FS) (rn tn : String)
    (keepPath : List String) (df : String → Bool)
    (hdir : cwdA.isDirAt (rn :: keepPath) = true)
    (hmv : cwdA.move (rn :: keepPath) [rn, tn] = some cwd1)
    (hmk : (deletePass cwd1 rn tn df).mkdirP (rn :: keepPath.dropLast) =
      some cwd3) :
    cwd3.isDirAt [rn, tn] = true := by
  obtain ⟨cs0, hcs0⟩ := FS.isDirAt_elim _ _ hdir
  obtain ⟨node, hl, hex, hpre, hub, ht1⟩ := FS.move_elim _ _ _ _ hmv
  rw [hcs0] at hl
  injection hl with hl
  subst hl
  subst ht1
  have h1 : ((cwdA.removeAt (rn :: keepPath)).setAt
      (moveDst cwdA (rn :: keepPath) [rn, tn]) (.dir cs0)).isDirAt
      [rn, tn] = true := by
    unfold moveDst at hub ⊢
    by_cases hd : cwdA.isDirAt [rn, tn] = true
    · rw [if_pos hd] at hub ⊢
      exact FS.isDirAt_setAt_strict_prefix _ _ _ _ hub (by simp)
    · rw [if_neg hd] at hub ⊢
      exact FS.isDirAt_intro _ _ cs0 (FS.lookup_setAt_self _ _ _ hub)
  have h2 : (deletePass ((cwdA.removeAt (rn :: keepPath)).setAt
      (moveDst cwdA (rn :: keepPath) [rn, tn]) (.dir cs0)) rn tn df).isDirAt
      [rn, tn] = true := by
    unfold FS.isDirAt at h1 ⊢
    rw [lookup_deletePass]
    rw [if_pos (Or.inr (Or.inl rfl))]
    exact h1
  exact FS.isDirAt_mkdirP_preserved _ _ _ _ hmk h2

theorem restored_isDir (cwd3 cwd4 : FS) (rn tn : String)
    (keepPath : List String)
    (htmp : cwd3.isDirAt [rn, tn] = true)
    (hmv2 : cwd3.move [rn, tn] (rn :: keepPath) = some cwd4) :
    cwd4.isDirAt (rn :: keepPath) = true := by
  obtain ⟨cs0, hcs0⟩ := FS.isDirAt_elim _ _ htmp
  obtain ⟨node, hl, hex, hpre, hub, ht2⟩ := FS.move_elim _ _ _ _ hmv2
  rw [hcs0] at hl
  injection hl with hl
  subst hl
  subst ht2
  unfold moveDst at hub ⊢
  by_cases hd : cwd3.isDirAt (rn :: keepPath) = true
  · rw [if_pos hd] at hub ⊢
    exact FS.isDirAt_setAt_strict_prefix _ _ _ _ hub (by simp)
  · rw [if_neg hd] at hub ⊢
    exact FS.isDirAt_intro _ _ cs0 (FS.lookup_setAt_self _ _ _ hub)

/-! ## C7: archive name, placement and rooting -/

/-- C7: on every successful run, the produced archive's base name is the
preserved subtree's directory name concatenated with today's date and
the .zip extension, the zip file sits one level above the working
directory as its sibling in the final state, the archived content is
exactly the preserved subtree at archive time (found at the keep path
and containing the just-written manifest version.json), and extraction
reproduces a single top-level directory named after the subtree holding
that content. -/
theorem claim_C7_archive_shape (cwd : FS) (rawUrl : String)
    (keepPath : List String) (version : String) (o : Oracle) (today : String)
    (stF : FS) (m : Manifest) (a : ArchiveInfo)
    (h : runMain cwd rawUrl keepPath version o today =
      .exited 0 stF (some m) (some a)) :
    a.fileName =
      keepPath.getLastD (repoNameOf (normalize_repo_url rawUrl)) ++ today ++
        ".zip" ∧
    a.rootName = keepPath.getLastD (repoNameOf (normalize_repo_url rawUrl)) ∧
    stF.lookup [a.fileName] = some .file ∧
    stF.lookup (repoNameOf (normalize_repo_url rawUrl) :: keepPath) =
      some a.content ∧
    a.content.lookup ["version.json"] = some .file ∧
    extractArchive a =
      .dir [(keepPath.getLastD (repoNameOf (normalize_repo_url rawUrl)),
        a.content)] := by
  obtain ⟨repoName, keepName, tempName, zipName, cwdA, cwd1, cwd3, cwd4, cwd5,
    hrn, hkn, htn, hzn, hc5, hv, hacq, hdir, hmt, hmv, hmk, hmb, hmv2, hwr,
    hm, har, ha, hstF⟩ := runMain_success_inversion _ _ _ _ _ _ _ _ _ h
  subst hrn
  subst hkn
  subst htn
  subst hzn
  subst hc5
  subst hstF
  subst ha
  have hkne : keepPath ≠ [] := by
    intro hk
    subst hk
    obtain ⟨node, hl2, hex2, hpre2, hub2, ht22⟩ := FS.move_elim _ _ _ _ hmv
    unfold moveDst at hpre2
    split at hpre2 <;> simp [List.isPrefixOf] at hpre2
  have hrest := restored_isDir _ _ _ _ _
    (temp_isDir _ _ _ _ _ _ _ hdir hmv hmk) hmv2
  obtain ⟨cs4, hcs4⟩ := FS.isDirAt_elim _ _ hrest
  have hwrite : ((cwd4.setAt (repoNameOf (normalize_repo_url rawUrl) ::
      (keepPath ++ ["version.json"])) .file).lookup
      (repoNameOf (normalize_repo_url rawUrl) :: keepPath)) =
      some ((FS.dir cs4).setAt ["version.json"] .file) := by
    have hx := FS.lookup_setAt_append cwd4
      (repoNameOf (normalize_repo_url rawUrl) :: keepPath) ["version.json"]
      (FS.dir cs4) .file hcs4
    simpa using hx
  have hzr : keepPath.getLastD (repoNameOf (normalize_repo_url rawUrl)) ++
      today ++ ".zip" ≠ repoNameOf (normalize_repo_url rawUrl) := by
    intro hz
    rw [Bool.or_eq_false_iff] at har
    have hdir5 : (cwd4.setAt (repoNameOf (normalize_repo_url rawUrl) ::
        (keepPath ++ ["version.json"])) .file).isDirAt
        [repoNameOf (normalize_repo_url rawUrl)] = true := by
      cases keepPath with
      | nil => exact absurd rfl hkne
      | cons k1 krest =>
          exact FS.isDirAt_singleton_of_lookup_cons _ _ _ _ hwrite (by simp)
    rw [hz] at har
    rw [hdir5] at har
    exact absurd har.2 (by decide)
  have hcontent : (((cwd4.setAt (repoNameOf (normalize_repo_url rawUrl) ::
      (keepPath ++ ["version.json"])) .file).lookup
      (repoNameOf (normalize_repo_url rawUrl) :: keepPath)).getD (.dir []))
      = (FS.dir cs4).setAt ["version.json"] .file := by
    rw [hwrite]
    rfl
  refine ⟨rfl, rfl, ?_, ?_, ?_, rfl⟩
  · exact FS.lookup_setAt_self _ _ _
      (FS.unblocked_singleton_of_lookup_cons _ _ _ _ _ hwrite)
  · show (((cwd4.setAt (repoNameOf (normalize_repo_url rawUrl) ::
        (keepPath ++ ["version.json"])) .file).setAt
        [keepPath.getLastD (repoNameOf (normalize_repo_url rawUrl)) ++
          today ++ ".zip"] .file).lookup
        (repoNameOf (normalize_repo_url rawUrl) :: keepPath)) = _
    rw [FS.lookup_setAt_diverge]
    · rw [hwrite]
      rfl
    · intro hp
      exact hzr (List.cons_prefix_cons.mp hp).1
    · intro hp
      have hple := hp.length_le
      cases keepPath with
      | nil => exact absurd rfl hkne
      | cons k1 krest => simp at hple
  · show ((((cwd4.setAt (repoNameOf (normalize_repo_url rawUrl) ::
        (keepPath ++ ["version.json"])) .file).lookup
        (repoNameOf (normalize_repo_url rawUrl) :: keepPath)).getD
        (.dir [])).lookup ["version.json"]) = some .file
    rw [hcontent]
    simp [FS.setAt, FS.lookup, childGet_childSet]

/-- Witness for C7 at the sample run. -/
theorem claim_C7_witness :
    (ArchiveInfo.fileName ⟨"src20260101.zip", "src", sampleSubtree⟩ =
      (["src"] : List String).getLastD
        (repoNameOf (normalize_repo_url "https://example.com/proj")) ++
        "20260101" ++ ".zip") ∧
    (ArchiveInfo.rootName ⟨"src20260101.zip", "src", sampleSubtree⟩ =
      (["src"] : List String).getLastD
        (repoNameOf (normalize_repo_url "https://example.com/proj"))) ∧
    sampleFinal.lookup
      [ArchiveInfo.fileName ⟨"src20260101.zip", "src", sampleSubtree⟩] =
      some .file ∧
    sampleFinal.lookup
      (repoNameOf (normalize_repo_url "https://example.com/proj") ::
        ["src"]) =
      some (ArchiveInfo.content ⟨"src20260101.zip", "src", sampleSubtree⟩) ∧
    (ArchiveInfo.content
        ⟨"src20260101.zip", "src", sampleSubtree⟩).lookup ["version.json"] =
      some .file ∧
    extractArchive ⟨"src20260101.zip", "src", sampleSubtree⟩ =
      .dir [((["src"] : List String).getLastD
        (repoNameOf (normalize_repo_url "https://example.com/proj")),
        ArchiveInfo.content ⟨"src20260101.zip", "src", sampleSubtree⟩)] :=
  claim_C7_archive_shape (.dir []) "https://example.com/proj" ["src"] "1.2.3"
    sampleOracle "20260101" sampleFinal
    ⟨"hello world", "1.2.3", ["a.py", "sub/b.js"]⟩
    ⟨"src20260101.zip", "src", sampleSubtree⟩ sampleRun_eq

theorem FS.removeAt_dir_shape (cs : List (String × FS)) (p : List String) :
    ∃ cs2, (FS.dir cs).removeAt p = .dir cs2 := by
  cases p with
  | nil => exact ⟨cs, rfl⟩
  | cons n r =>
      cases r with
      | nil => exact ⟨childErase cs n, rfl⟩
      | cons b bs =>
          simp only [FS.removeAt]
          cases childGet cs n with
          | none => exact ⟨cs, rfl⟩
          | some c => exact ⟨childSet cs n (c.removeAt (b :: bs)), rfl⟩

theorem mkdirP_fresh (q : List String) :
    ∃ u : FS, (FS.dir []).mkdirP q = some u ∧
      (∀ r, u.lookup (q ++ r) =
        if r = [] then some (.dir []) else none) ∧
      (∀ r, u.unblocked (q ++ r) = true) := by
  induction q with
  | nil =>
      refine ⟨.dir [], rfl, ?_, ?_⟩
      · intro r
        cases r with
        | nil => rfl
        | cons x xs => simp [FS.lookup, childGet]
      · intro r
        cases r with
        | nil => rfl
        | cons x xs => simp [FS.unblocked, childGet]
  | cons m qr ih =>
      obtain ⟨u, hu, hlk, hub⟩ := ih
      refine ⟨.dir [(m, u)], ?_, ?_, ?_⟩
      · simp only [FS.mkdirP, childGet, hu]
        rfl
      · intro r
        simpa [FS.lookup, childGet] using hlk r
      · intro r
        simpa [FS.unblocked, childGet] using hub r

/-! ## C6: a nested keep path is restored through a recreated chain -/

/-- C6: when the keep path is nested (k1 :: rest with rest nonempty),
its top parent k1 is neither the git marker nor the temporary holder
name and its deletion succeeds (so the whole parent chain disappears in
the sibling-deletion pass), and no entry named like the temporary
holder pre-existed, then after a successful move to the temporary
holder the restore step succeeds rather than failing: makedirs
recreates the entire missing parent chain, the move back succeeds, the
subtree ends at its original relative location unchanged, and the run
continues to the manifest phase. -/
theorem claim_C6_nested_restore (cwdA cwd1 : FS) (rn k1 tn : String)
    (rest keepPath : List String) (version today : String) (o : Oracle)
    (hkp : keepPath = k1 :: rest) (hrest : rest ≠ [])
    (htn : tn = ".keep_temp_" ++ keepPath.getLastD rn)
    (hk1git : k1 ≠ ".git") (hk1tn : k1 ≠ tn)
    (hdel : o.deleteFails k1 = false)
    (hmb : o.moveBackFails = false)
    (hdir : cwdA.isDirAt (rn :: keepPath) = true)
    (hnt : cwdA.isDirAt [rn, tn] = false)
    (hmv : cwdA.move (rn :: keepPath) [rn, tn] = some cwd1) :
    ∃ cwd3 cwd4 : FS,
      (deletePass cwd1 rn tn o.deleteFails).mkdirP
        (rn :: keepPath.dropLast) = some cwd3 ∧
      cwd3.isDirAt (rn :: keepPath.dropLast) = true ∧
      cwd3.move [rn, tn] (rn :: keepPath) = some cwd4 ∧
      cwd4.lookup (rn :: keepPath) = cwdA.lookup (rn :: keepPath) ∧
      restorePhase (deletePass cwd1 rn tn o.deleteFails) rn
        (keepPath.getLastD rn) tn keepPath version o today =
        manifestPhase cwd4 rn (keepPath.getLastD rn) keepPath version o
          today := by
  subst hkp
  obtain ⟨cs0, hcs0⟩ := FS.isDirAt_elim _ _ hdir
  obtain ⟨node, hl, hex, hpre, hub, ht1⟩ := FS.move_elim _ _ _ _ hmv
  rw [hcs0] at hl
  injection hl with hl
  subst hl
  have hnd : ¬ (cwdA.isDirAt [rn, tn] = true) := by
    rw [hnt]
    exact Bool.false_ne_true
  have hmd1 : moveDst cwdA (rn :: k1 :: rest) [rn, tn] = [rn, tn] := by
    unfold moveDst
    exact if_neg hnd
  rw [hmd1] at ht1
  cases cwdA with
  | file => simp [FS.lookup] at hcs0
  | dir csA =>
  cases hcA : childGet csA rn with
  | none => simp [FS.lookup, hcA] at hcs0
  | some cA =>
  cases cA with
  | file =>
      rw [FS.lookup] at hcs0
      rw [hcA] at hcs0
      simp [FS.lookup] at hcs0
  | dir csr =>
  have hcsr : (FS.dir csr).lookup (k1 :: rest) = some (.dir cs0) := by
    rw [FS.lookup, hcA] at hcs0
    exact hcs0
  obtain ⟨csr2, hcsr2⟩ := FS.removeAt_dir_shape csr (k1 :: rest)
  have hrm : (FS.dir csA).removeAt (rn :: k1 :: rest) =
      .dir (childSet csA rn (.dir csr2)) := by
    simp only [FS.removeAt, hcA, hcsr2]
  have hc1 : cwd1 = .dir (childSet (childSet csA rn (.dir csr2)) rn
      (.dir (childSet csr2 tn (.dir cs0)))) := by
    rw [ht1, hrm]
    simp [FS.setAt, childGet_childSet]
  have hc2 : deletePass cwd1 rn tn o.deleteFails =
      .dir (childSet (childSet (childSet csA rn (.dir csr2)) rn
        (.dir (childSet csr2 tn (.dir cs0)))) rn
        (.dir ((childSet csr2 tn (.dir cs0)).filter fun e =>
          e.1 = ".git" || e.1 = tn || o.deleteFails e.1))) := by
    rw [hc1]
    unfold deletePass
    simp [FS.updateAt, childGet_childSet]
  have hdl : (k1 :: rest).dropLast = k1 :: rest.dropLast := by
    cases rest with
    | nil => exact absurd rfl hrest
    | cons a b => rfl
  obtain ⟨u, hu, hulk, huub⟩ := mkdirP_fresh rest.dropLast
  have hck1 : childGet ((childSet csr2 tn (.dir cs0)).filter fun e =>
      e.1 = ".git" || e.1 = tn || o.deleteFails e.1) k1 = none := by
    rw [childGet_filterName _
      (fun s => s = ".git" || s = tn || o.deleteFails s) k1]
    rw [if_neg]
    simp [hk1git, hk1tn, hdel]
  have hmk : (deletePass cwd1 rn tn o.deleteFails).mkdirP
      (rn :: (k1 :: rest).dropLast) =
      some (.dir (childSet (childSet (childSet (childSet csA rn
          (.dir csr2)) rn (.dir (childSet csr2 tn (.dir cs0)))) rn
        (.dir ((childSet csr2 tn (.dir cs0)).filter fun e =>
          e.1 = ".git" || e.1 = tn || o.deleteFails e.1))) rn
        (.dir (childSet ((childSet csr2 tn (.dir cs0)).filter fun e =>
          e.1 = ".git" || e.1 = tn || o.deleteFails e.1) k1 u)))) := by
    rw [hc2, hdl]
    simp only [FS.mkdirP, childGet_childSet, if_pos, hck1, hu]
  have hgettn : childGet ((childSet csr2 tn (.dir cs0)).filter fun e =>
      e.1 = ".git" || e.1 = tn || o.deleteFails e.1) tn =
      some (.dir cs0) := by
    rw [childGet_filterName _
      (fun s => s = ".git" || s = tn || o.deleteFails s) tn]
    rw [if_pos (by simp)]
    rw [childGet_childSet, if_pos rfl]
  have hulkrest : u.lookup rest = none := by
    conv_lhs => rw [← List.dropLast_append_getLast hrest]
    rw [hulk [rest.getLast hrest]]
    simp
  have huubrest : u.unblocked rest = true := by
    conv_lhs => rw [← List.dropLast_append_getLast hrest]
    exact huub _
  have hsrc : (FS.dir (childSet (childSet (childSet (childSet csA rn
      (.dir csr2)) rn (.dir (childSet csr2 tn (.dir cs0)))) rn
      (.dir ((childSet csr2 tn (.dir cs0)).filter fun e =>
        e.1 = ".git" || e.1 = tn || o.deleteFails e.1))) rn
      (.dir (childSet ((childSet csr2 tn (.dir cs0)).filter fun e =>
        e.1 = ".git" || e.1 = tn || o.deleteFails e.1) k1 u)))).lookup
      [rn, tn] = some (.dir cs0) := by
    simp [FS.lookup, childGet_childSet, Ne.symm hk1tn, hgettn]
  have hdst : (FS.dir (childSet (childSet (childSet (childSet csA rn
      (.dir csr2)) rn (.dir (childSet csr2 tn (.dir cs0)))) rn
      (.dir ((childSet csr2 tn (.dir cs0)).filter fun e =>
        e.1 = ".git" || e.1 = tn || o.deleteFails e.1))) rn
      (.dir (childSet ((childSet csr2 tn (.dir cs0)).filter fun e =>
        e.1 = ".git" || e.1 = tn || o.deleteFails e.1) k1 u)))).lookup
      (rn :: k1 :: rest) = none := by
    simp [FS.lookup, childGet_childSet, hulkrest]
  have hrm3 : (FS.dir (childSet (childSet (childSet (childSet csA rn
      (.dir csr2)) rn (.dir (childSet csr2 tn (.dir cs0)))) rn
      (.dir ((childSet csr2 tn (.dir cs0)).filter fun e =>
        e.1 = ".git" || e.1 = tn || o.deleteFails e.1))) rn
      (.dir (childSet ((childSet csr2 tn (.dir cs0)).filter fun e =>
        e.1 = ".git" || e.1 = tn || o.deleteFails e.1) k1 u)))).removeAt
      [rn, tn] =
      .dir (childSet (childSet (childSet (childSet (childSet csA rn
        (.dir csr2)) rn (.dir (childSet csr2 tn (.dir cs0)))) rn
        (.dir ((childSet csr2 tn (.dir cs0)).filter fun e =>
          e.1 = ".git" || e.1 = tn || o.deleteFails e.1))) rn
        (.dir (childSet ((childSet csr2 tn (.dir cs0)).filter fun e =>
          e.1 = ".git" || e.1 = tn || o.deleteFails e.1) k1 u))) rn
        (.dir (childErase (childSet ((childSet csr2 tn
          (.dir cs0)).filter fun e =>
          e.1 = ".git" || e.1 = tn || o.deleteFails e.1) k1 u) tn))) := by
    simp [FS.removeAt, childGet_childSet]
  have hub3 : ((FS.dir (childSet (childSet (childSet (childSet csA rn
      (.dir csr2)) rn (.dir (childSet csr2 tn (.dir cs0)))) rn
      (.dir ((childSet csr2 tn (.dir cs0)).filter fun e =>
        e.1 = ".git" || e.1 = tn || o.deleteFails e.1))) rn
      (.dir (childSet ((childSet csr2 tn (.dir cs0)).filter fun e =>
        e.1 = ".git" || e.1 = tn || o.deleteFails e.1) k1 u)))).removeAt
      [rn, tn]).unblocked (rn :: k1 :: rest) = true := by
    rw [hrm3]
    simp [FS.unblocked, childGet_childSet, childGet_childErase,
      hk1tn, Ne.symm hk1tn, huubrest]
  have hmv2 : (FS.dir (childSet (childSet (childSet (childSet csA rn
      (.dir csr2)) rn (.dir (childSet csr2 tn (.dir cs0)))) rn
      (.dir ((childSet csr2 tn (.dir cs0)).filter fun e =>
        e.1 = ".git" || e.1 = tn || o.deleteFails e.1))) rn
      (.dir (childSet ((childSet csr2 tn (.dir cs0)).filter fun e =>
        e.1 = ".git" || e.1 = tn || o.deleteFails e.1) k1 u)))).move
      [rn, tn] (rn :: k1 :: rest) =
      some (((FS.dir (childSet (childSet (childSet (childSet csA rn
        (.dir csr2)) rn (.dir (childSet csr2 tn (.dir cs0)))) rn
        (.dir ((childSet csr2 tn (.dir cs0)).filter fun e =>
          e.1 = ".git" || e.1 = tn || o.deleteFails e.1))) rn
        (.dir (childSet ((childSet csr2 tn (.dir cs0)).filter fun e =>
          e.1 = ".git" || e.1 = tn || o.deleteFails e.1) k1 u)))).removeAt
        [rn, tn]).setAt (rn :: k1 :: rest) (.dir cs0)) := by
    unfold FS.move
    rw [hsrc]
    dsimp only []
    have hmd2 : moveDst (FS.dir (childSet (childSet (childSet (childSet csA
        rn (.dir csr2)) rn (.dir (childSet csr2 tn (.dir cs0)))) rn
        (.dir ((childSet csr2 tn (.dir cs0)).filter fun e =>
          e.1 = ".git" || e.1 = tn || o.deleteFails e.1))) rn
        (.dir (childSet ((childSet csr2 tn (.dir cs0)).filter fun e =>
          e.1 = ".git" || e.1 = tn || o.deleteFails e.1) k1 u))))
        [rn, tn] (rn :: k1 :: rest) = rn :: k1 :: rest := by
      unfold moveDst
      rw [if_neg]
      unfold FS.isDirAt
      rw [hdst]
      exact Bool.false_ne_true
    rw [hmd2]
    have hex2 : (FS.dir (childSet (childSet (childSet (childSet csA rn
        (.dir csr2)) rn (.dir (childSet csr2 tn (.dir cs0)))) rn
        (.dir ((childSet csr2 tn (.dir cs0)).filter fun e =>
          e.1 = ".git" || e.1 = tn || o.deleteFails e.1))) rn
        (.dir (childSet ((childSet csr2 tn (.dir cs0)).filter fun e =>
          e.1 = ".git" || e.1 = tn || o.deleteFails e.1) k1 u)))).existsAt
        (rn :: k1 :: rest) = false := by
      unfold FS.existsAt
      rw [hdst]
      rfl
    simp [hex2, List.isPrefixOf, Ne.symm hk1tn, hub3]
  refine ⟨_, _, hmk, FS.isDirAt_mkdirP _ _ _ hmk, hmv2, ?_, ?_⟩
  · rw [FS.lookup_setAt_self _ _ _ hub3, hcs0]
  · unfold restorePhase
    rw [hmk]
    dsimp only []
    rw [hmb]
    rw [if_neg (by decide : ¬ ((false : Bool) = true))]
    rw [hmv2]

/-- Witness for C6 at the nested keep path a/b. -/
theorem claim_C6_witness :
    ∃ cwd3 cwd4 : FS,
      (deletePass nestedCwd1 "proj" ".keep_temp_b"
          sampleOracle.deleteFails).mkdirP
          ("proj" :: (["a", "b"] : List String).dropLast) = some cwd3 ∧
      cwd3.isDirAt ("proj" :: (["a", "b"] : List String).dropLast) = true ∧
      cwd3.move ["proj", ".keep_temp_b"]
          ("proj" :: (["a", "b"] : List String)) = some cwd4 ∧
      cwd4.lookup ("proj" :: (["a", "b"] : List String)) =
        nestedRepoA.lookup ("proj" :: (["a", "b"] : List String)) ∧
      restorePhase (deletePass nestedCwd1 "proj" ".keep_temp_b"
          sampleOracle.deleteFails) "proj"
          ((["a", "b"] : List String).getLastD "proj") ".keep_temp_b"
          ["a", "b"] "1.0" sampleOracle "20260101" =
        manifestPhase cwd4 "proj"
          ((["a", "b"] : List String).getLastD "proj")
          ["a", "b"] "1.0" sampleOracle "20260101" :=
  claim_C6_nested_restore nestedRepoA nestedCwd1 "proj" "a" ".keep_temp_b"
    ["b"] ["a", "b"] "1.0" "20260101" sampleOracle rfl (by decide)
    (by decide) (by decide) (by decide) rfl rfl
    (by simp +decide [nestedRepoA, FS.isDirAt, FS.lookup, childGet])
    (by simp +decide [nestedRepoA, FS.isDirAt, FS.lookup, childGet])
    (by simp +decide [nestedRepoA, nestedCwd1, FS.move, moveDst, FS.isDirAt,
      FS.lookup, FS.existsAt, FS.removeAt, FS.setAt, FS.unblocked, childGet,
      childSet, childErase, List.isPrefixOf])

/-! ## C3: deletion failures are swallowed, move failures are fatal -/

/-- C3: the asymmetry of the subtree isolator's error handling. Once
the keep path resolves to a directory: a failing move to the temporary
holder terminates the run with status 6 (whether the rename raises or
the move is rejected); when the move succeeds, the run always continues
into the restore step through the best-effort deletion pass, for every
per-entry deletion-failure oracle — a failed sibling deletion can never
terminate the run at the deletion step; and in the restore step a
failing move back terminates the run with status 7 (again whether the
rename raises or the move is rejected). -/
theorem claim_C3_error_asymmetry (cwdA : FS) (rn : String)
    (keepPath : List String) (version : String) (o : Oracle)
    (today : String)
    (hdir : cwdA.isDirAt (rn :: keepPath) = true) :
    (o.moveTempFails = true →
      phase2 cwdA rn keepPath version o today = .exited 6 cwdA none none) ∧
    (o.moveTempFails = false →
      cwdA.move (rn :: keepPath)
        [rn, ".keep_temp_" ++ keepPath.getLastD rn] = none →
      phase2 cwdA rn keepPath version o today = .exited 6 cwdA none none) ∧
    (∀ cwd1, o.moveTempFails = false →
      cwdA.move (rn :: keepPath)
        [rn, ".keep_temp_" ++ keepPath.getLastD rn] = some cwd1 →
      phase2 cwdA rn keepPath version o today =
        restorePhase (deletePass cwd1 rn
          (".keep_temp_" ++ keepPath.getLastD rn) o.deleteFails) rn
          (keepPath.getLastD rn) (".keep_temp_" ++ keepPath.getLastD rn)
          keepPath version o today) ∧
    (∀ cwd2 cwd3 : FS, o.moveBackFails = true →
      cwd2.mkdirP (rn :: keepPath.dropLast) = some cwd3 →
      restorePhase cwd2 rn (keepPath.getLastD rn)
        (".keep_temp_" ++ keepPath.getLastD rn) keepPath version o today =
        .exited 7 cwd3 none none) ∧
    (∀ cwd2 cwd3 : FS, o.moveBackFails = false →
      cwd2.mkdirP (rn :: keepPath.dropLast) = some cwd3 →
      cwd3.move [rn, ".keep_temp_" ++ keepPath.getLastD rn]
        (rn :: keepPath) = none →
      restorePhase cwd2 rn (keepPath.getLastD rn)
        (".keep_temp_" ++ keepPath.getLastD rn) keepPath version o today =
        .exited 7 cwd3 none none) := by
  refine ⟨?_, ?_, ?_, ?_, ?_⟩
  · intro hmt
    unfold phase2
    rw [hdir, if_pos rfl, hmt, if_pos rfl]
  · intro hmt hmv
    unfold phase2
    rw [hdir, if_pos rfl, hmt, if_neg (by decide : ¬ ((false : Bool) = true))]
    rw [hmv]
  · intro cwd1 hmt hmv
    unfold phase2
    rw [hdir, if_pos rfl, hmt, if_neg (by decide : ¬ ((false : Bool) = true))]
    rw [hmv]
  · intro cwd2 cwd3 hmb hmk
    unfold restorePhase
    rw [hmk]
    dsimp only []
    rw [hmb, if_pos rfl]
  · intro cwd2 cwd3 hmb hmk hmv2
    unfold restorePhase
    rw [hmk]
    dsimp only []
    rw [hmb, if_neg (by decide : ¬ ((false : Bool) = true))]
    rw [hmv2]

/-- Witness for C3 at the sample acquired tree. -/
theorem claim_C3_witness :
    ((sampleOracle.moveTempFails = true →
      phase2 (.dir [("proj", sampleRepo)]) "proj" ["src"] "1.2.3"
        sampleOracle "20260101" =
        .exited 6 (.dir [("proj", sampleRepo)]) none none) ∧
    (sampleOracle.moveTempFails = false →
      FS.move (.dir [("proj", sampleRepo)]) ("proj" :: ["src"])
        ["proj", ".keep_temp_" ++ (["src"] : List String).getLastD "proj"] =
        none →
      phase2 (.dir [("proj", sampleRepo)]) "proj" ["src"] "1.2.3"
        sampleOracle "20260101" =
        .exited 6 (.dir [("proj", sampleRepo)]) none none) ∧
    (∀ cwd1, sampleOracle.moveTempFails = false →
      FS.move (.dir [("proj", sampleRepo)]) ("proj" :: ["src"])
        ["proj", ".keep_temp_" ++ (["src"] : List String).getLastD "proj"] =
        some cwd1 →
      phase2 (.dir [("proj", sampleRepo)]) "proj" ["src"] "1.2.3"
        sampleOracle "20260101" =
        restorePhase (deletePass cwd1 "proj"
          (".keep_temp_" ++ (["src"] : List String).getLastD "proj")
          sampleOracle.deleteFails) "proj"
          ((["src"] : List String).getLastD "proj")
          (".keep_temp_" ++ (["src"] : List String).getLastD "proj")
          ["src"] "1.2.3" sampleOracle "20260101") ∧
    (∀ cwd2 cwd3 : FS, sampleOracle.moveBackFails = true →
      cwd2.mkdirP ("proj" :: (["src"] : List String).dropLast) = some cwd3 →
      restorePhase cwd2 "proj" ((["src"] : List String).getLastD "proj")
        (".keep_temp_" ++ (["src"] : List String).getLastD "proj")
        ["src"] "1.2.3" sampleOracle "20260101" =
        .exited 7 cwd3 none none) ∧
    (∀ cwd2 cwd3 : FS, sampleOracle.moveBackFails = false →
      cwd2.mkdirP ("proj" :: (["src"] : List String).dropLast) = some cwd3 →
      cwd3.move
        ["proj", ".keep_temp_" ++ (["src"] : List String).getLastD "proj"]
        ("proj" :: ["src"]) = none →
      restorePhase cwd2 "proj" ((["src"] : List String).getLastD "proj")
        (".keep_temp_" ++ (["src"] : List String).getLastD "proj")
        ["src"] "1.2.3" sampleOracle "20260101" =
        .exited 7 cwd3 none none)) :=
  claim_C3_error_asymmetry (.dir [("proj", sampleRepo)]) "proj" ["src"]
    "1.2.3" sampleOracle "20260101"
    (by simp +decide [sampleRepo, FS.isDirAt, FS.lookup, childGet])

/-! ## C2: survivors at the top level of the working directory -/

/-- C2 counterexample: a run in which one sibling deletion fails exits
with status 0, yet the working directory still holds a top-level entry
junk.txt that is neither the version-control marker nor the keep path
— the claimed "exactly .git and the keep subtree" postcondition of a
successful run does not hold, because per-entry deletion failures are
swallowed without affecting the exit status. -/
theorem claim_C2_counterexample :
    runMain (.dir []) "https://example.com/proj" ["src"] "1.0" badOracle
        "20260101" =
      .exited 0 badFinal (some ⟨"hello world", "1.0", ["a.py"]⟩)
        (some ⟨"src20260101.zip", "src",
          .dir [("a.py", .file), ("version.json", .file)]⟩) ∧
    badFinal.lookup ["proj", "junk.txt"] = some .file ∧
    "junk.txt" ≠ ".git" ∧ "junk.txt" ≠ "src" := by
  refine ⟨?_, ?_, by decide, by decide⟩
  · simp +decide [runMain, phase2, restorePhase, manifestPhase, archivePhase,
      manifestOf, acquireStep, deletePass, badOracle, badRepo, badFinal,
      FS.move, FS.lookup, FS.unblocked, FS.setAt, FS.removeAt,
      FS.updateAt, FS.mkdirP, FS.existsAt, FS.isDirAt, childGet, childSet,
      childErase, FS.filePaths, childFilePaths, normalize_repo_url, pyStrip,
      stripChars, isPyWs, pyEndsWith, is_valid_url, urlScheme, urlNetloc,
      urlRest, lowerString, isSchemeChar, repoNameOf, pyStem, pySuffix,
      notDot, pyPathName, pathParts, splitOnChar, joinPath, exts,
      List.insertionSort, List.orderedInsert, pyStrLe, strLeB,
      List.isPrefixOf]
  · simp [badFinal, FS.lookup, childGet]

theorem FS.lookup_dir_single (cs : List (String × FS)) (x : String) :
    (FS.dir cs).lookup [x] = childGet cs x := by
  simp only [FS.lookup]
  cases childGet cs x with
  | none => rfl
  | some c => rfl

theorem not_single_prefix_pair (z r x : String) (hzr : z ≠ r) :
    ¬ ([z] : List String) <+: [r, x] :=
  fun hp => hzr (List.cons_prefix_cons.mp hp).1

theorem not_pair_prefix_single (r x z : String) :
    ¬ ([r, x] : List String) <+: [z] := by
  intro hp
  have h2 := (List.cons_prefix_cons.mp hp).2
  have h3 := h2.length_le
  simp at h3

theorem not_prefix_pair_left (r x b a : String) (tail : List String)
    (hxb : x ≠ b) : ¬ ([r, x] : List String) <+: (a :: b :: tail) := by
  intro hp
  exact hxb (List.cons_prefix_cons.mp (List.cons_prefix_cons.mp hp).2).1

theorem not_prefix_pair_right (r x b a : String) (tail : List String)
    (hbx : b ≠ x) : ¬ (a :: b :: tail) <+: ([r, x] : List String) := by
  intro hp
  exact hbx (List.cons_prefix_cons.mp (List.cons_prefix_cons.mp hp).2).1

theorem keepTemp_ne_git (s : String) :
    (".keep_temp_" ++ s : String) ≠ ".git" := by
  intro hh
  have hlen := congrArg String.length hh
  rw [String.length_append] at hlen
  rw [show (".keep_temp_" : String).length = 11 from rfl] at hlen
  rw [show (".git" : String).length = 4 from rfl] at hlen
  omega

theorem moveDst_shape (t : FS) (src : List String) (d1 d2 : String)
    (ds : List String) :
    ∃ tail, moveDst t src (d1 :: d2 :: ds) = d1 :: d2 :: tail := by
  unfold moveDst
  split
  · exact ⟨ds ++ [src.getLastD ""], rfl⟩
  · exact ⟨ds, rfl⟩

theorem FS.isSome_lookup_of_append (t : FS) (p q : List String)
    (h : (t.lookup (p ++ q)).isSome = true) :
    (t.lookup p).isSome = true := by
  rw [FS.lookup_append] at h
  cases hl : t.lookup p with
  | none => rw [hl] at h; simp at h
  | some u => rfl

theorem FS.lookup_isSome_mkdirP (q : List String) (t t2 : FS)
    (hm : t.mkdirP q = some t2) (p : List String) :
    (t2.lookup p).isSome = true ↔
      ((t.lookup p).isSome = true ∨ p <+: q) := by
  induction q generalizing t t2 p with
  | nil =>
      cases t with
      | file => simp [FS.mkdirP] at hm
      | dir cs =>
          simp only [FS.mkdirP, Option.some.injEq] at hm
          subst hm
          constructor
          · exact Or.inl
          · rintro (h | h)
            · exact h
            · rw [List.prefix_nil] at h
              subst h
              simp [FS.lookup]
  | cons m qr ih =>
      cases t with
      | file => simp [FS.mkdirP] at hm
      | dir cs =>
          cases hc : childGet cs m with
          | none =>
              cases hmm : (FS.dir []).mkdirP qr with
              | none =>
                  simp only [FS.mkdirP, hc, hmm] at hm
                  exact Option.noConfusion hm
              | some u =>
                  simp only [FS.mkdirP, hc, hmm, Option.some.injEq] at hm
                  subst hm
                  cases p with
                  | nil => simp [FS.lookup]
                  | cons n pr =>
                      by_cases hnm : n = m
                      · subst hnm
                        rw [show (FS.dir (childSet cs n u)).lookup (n :: pr) =
                          u.lookup pr from by
                            simp [FS.lookup, childGet_childSet]]
                        rw [ih (FS.dir []) u hmm pr]
                        constructor
                        · rintro (h | h)
                          · cases pr with
                            | nil =>
                                exact Or.inr (List.cons_prefix_cons.mpr
                                  ⟨rfl, List.nil_prefix⟩)
                            | cons a b => simp [FS.lookup, childGet] at h
                          · exact Or.inr
                              (List.cons_prefix_cons.mpr ⟨rfl, h⟩)
                        · rintro (h | h)
                          · simp [FS.lookup, hc] at h
                          · exact Or.inr (List.cons_prefix_cons.mp h).2
                      · rw [show (FS.dir (childSet cs m u)).lookup (n :: pr) =
                          (FS.dir cs).lookup (n :: pr) from by
                            simp [FS.lookup, childGet_childSet, hnm]]
                        simp [List.cons_prefix_cons, hnm]
          | some c =>
              cases hmm : c.mkdirP qr with
              | none =>
                  simp only [FS.mkdirP, hc, hmm] at hm
                  exact Option.noConfusion hm
              | some c2 =>
                  simp only [FS.mkdirP, hc, hmm, Option.some.injEq] at hm
                  subst hm
                  cases p with
                  | nil => simp [FS.lookup]
                  | cons n pr =>
                      by_cases hnm : n = m
                      · subst hnm
                        rw [show (FS.dir (childSet cs n c2)).lookup (n :: pr) =
                          c2.lookup pr from by
                            simp [FS.lookup, childGet_childSet]]
                        rw [show (FS.dir cs).lookup (n :: pr) =
                          c.lookup pr from by simp [FS.lookup, hc]]
                        rw [ih c c2 hmm pr]
                        simp [List.cons_prefix_cons]
                      · rw [show (FS.dir (childSet cs m c2)).lookup (n :: pr) =
                          (FS.dir cs).lookup (n :: pr) from by
                            simp [FS.lookup, childGet_childSet, hnm]]
                        simp [List.cons_prefix_cons, hnm]

/-- C2 (amended): after every successful run in which every sibling
deletion succeeds and acquisition leaves the version-control marker in
the working directory, the top level of the working directory contains
exactly the marker .git and the head of the keep path: a name resolves
directly under the repository directory iff it is one of those two.
The keep path may be nested arbitrarily and may itself name the
marker. -/
theorem claim_C2_amended (cwd : FS) (rawUrl : String)
    (keepPath : List String) (version : String) (o : Oracle) (today : String)
    (stF : FS) (m : Manifest) (a : ArchiveInfo)
    (hdf : o.deleteFails = fun _ => false)
    (hpost : ∀ cwdA',
      acquireStep cwd (repoNameOf (normalize_repo_url rawUrl)) o =
        .ok cwdA' →
      cwdA'.existsAt [repoNameOf (normalize_repo_url rawUrl), ".git"] =
        true)
    (h : runMain cwd rawUrl keepPath version o today =
      .exited 0 stF (some m) (some a)) :
    ∀ x, (stF.lookup [repoNameOf (normalize_repo_url rawUrl), x]).isSome =
      true ↔ (x = ".git" ∨ x = keepPath.headD "") := by
  obtain ⟨repoName, keepName, tempName, zipName, cwdA, cwd1, cwd3, cwd4, cwd5,
    hrn, hkn, htn, hzn, hc5, hv, hacq, hdir, hmt, hmv, hmk, hmb, hmv2, hwr,
    hm, har, ha, hstF⟩ := runMain_success_inversion _ _ _ _ _ _ _ _ _ h
  subst hrn
  subst hkn
  subst htn
  subst hzn
  subst hc5
  subst hstF
  have hgit := hpost cwdA hacq
  obtain ⟨rn, hrrn⟩ : ∃ rn, repoNameOf (normalize_repo_url rawUrl) = rn :=
    ⟨_, rfl⟩
  rw [hrrn] at hacq hdir hmv hmk hmv2 har hgit ⊢
  have hkne : keepPath ≠ [] := by
    intro hk
    subst hk
    obtain ⟨nd, hl2, hex2, hpre2, hub2, ht22⟩ := FS.move_elim _ _ _ _ hmv
    unfold moveDst at hpre2
    split at hpre2 <;> simp [List.isPrefixOf] at hpre2
  cases keepPath with
  | nil => exact absurd rfl hkne
  | cons k1 rest =>
  have htngit : (".keep_temp_" ++ (k1 :: rest).getLastD rn : String) ≠
      ".git" := keepTemp_ne_git _
  obtain ⟨tn, htdef⟩ :
      ∃ tn, (".keep_temp_" ++ (k1 :: rest).getLastD rn : String) = tn :=
    ⟨_, rfl⟩
  rw [htdef] at htngit hmv hmk hmv2
  obtain ⟨stt, hstt⟩ := FS.move_lookup_dst _ _ _ _ hmv2
  simp only [List.cons_append] at har ⊢
  have hwrite : ((cwd4.setAt (rn :: k1 :: (rest ++ ["version.json"]))
      .file).lookup (rn :: k1 :: rest)) =
      some (stt.setAt ["version.json"] .file) := by
    have hx := FS.lookup_setAt_append cwd4 (rn :: k1 :: rest)
      ["version.json"] stt .file hstt
    simpa using hx
  have hzr : (k1 :: rest).getLastD rn ++ today ++ ".zip" ≠ rn := by
    intro hz
    rw [Bool.or_eq_false_iff] at har
    have hdir5 : (cwd4.setAt (rn :: k1 :: (rest ++ ["version.json"]))
        .file).isDirAt [rn] = true :=
      FS.isDirAt_singleton_of_lookup_cons _ _ _ _ hwrite (by simp)
    rw [hz] at har
    rw [hdir5] at har
    exact absurd har.2 (by decide)
  obtain ⟨node2, hl2, hex2, hpre2, hub2, ht2⟩ := FS.move_elim _ _ _ _ hmv2
  obtain ⟨tail2, htail2⟩ := moveDst_shape cwd3 [rn, tn] rn k1 rest
  rw [htail2] at ht2
  obtain ⟨node1, hl1, hex1, hpre1, hub1, ht1⟩ := FS.move_elim _ _ _ _ hmv
  obtain ⟨tail1, htail1⟩ := moveDst_shape cwdA (rn :: k1 :: rest) rn tn []
  rw [htail1] at ht1
  intro x
  rw [FS.lookup_setAt_diverge _ _ _ _
    (not_single_prefix_pair _ _ _ hzr) (not_pair_prefix_single _ _ _)]
  simp only [List.headD_cons]
  by_cases hxk : x = k1
  · subst hxk
    have hsome : ((cwd4.setAt (rn :: x :: (rest ++ ["version.json"]))
        .file).lookup [rn, x]).isSome = true := by
      apply FS.isSome_lookup_of_append _ [rn, x] rest
      rw [show ([rn, x] : List String) ++ rest = rn :: x :: rest from rfl]
      rw [hwrite]
      rfl
    rw [hsome]
    simp
  · by_cases hxg : x = ".git"
    · subst hxg
      rw [FS.lookup_setAt_diverge _ _ _ _
        (not_prefix_pair_right rn ".git" k1 rn (rest ++ ["version.json"])
          (fun hh => hxk hh.symm))
        (not_prefix_pair_left rn ".git" k1 rn (rest ++ ["version.json"])
          hxk)]
      rw [ht2]
      rw [FS.lookup_setAt_diverge _ _ _ _
        (not_prefix_pair_right rn ".git" k1 rn tail2 (fun hh => hxk hh.symm))
        (not_prefix_pair_left rn ".git" k1 rn tail2 hxk)]
      rw [FS.lookup_removeAt_diverge _ _ _
        (not_prefix_pair_right rn ".git" tn rn [] htngit)
        (not_prefix_pair_left rn ".git" tn rn [] (Ne.symm htngit))]
      rw [FS.lookup_isSome_mkdirP _ _ _ hmk]
      have hnpre : ¬ (([rn, ".git"] : List String) <+:
          rn :: (k1 :: rest).dropLast) := by
        cases rest with
        | nil => exact not_pair_prefix_single rn ".git" rn
        | cons r1 rr =>
            exact not_prefix_pair_left rn ".git" k1 rn (r1 :: rr).dropLast
              hxk
      rw [or_iff_left hnpre]
      rw [lookup_deletePass]
      rw [if_pos (Or.inl rfl)]
      rw [ht1]
      rw [FS.lookup_setAt_diverge _ _ _ _
        (not_prefix_pair_right rn ".git" tn rn tail1 htngit)
        (not_prefix_pair_left rn ".git" tn rn tail1 (Ne.symm htngit))]
      rw [FS.lookup_removeAt_diverge _ _ _
        (not_prefix_pair_right rn ".git" k1 rn rest (fun hh => hxk hh.symm))
        (not_prefix_pair_left rn ".git" k1 rn rest hxk)]
      unfold FS.existsAt at hgit
      rw [hgit]
      simp
    · by_cases hxt : x = tn
      · subst hxt
        rw [FS.lookup_setAt_diverge _ _ _ _
          (not_prefix_pair_right rn x k1 rn (rest ++ ["version.json"])
            (fun hh => hxk hh.symm))
          (not_prefix_pair_left rn x k1 rn (rest ++ ["version.json"]) hxk)]
        rw [ht2]
        rw [FS.lookup_setAt_diverge _ _ _ _
          (not_prefix_pair_right rn x k1 rn tail2 (fun hh => hxk hh.symm))
          (not_prefix_pair_left rn x k1 rn tail2 hxk)]
        rw [FS.lookup_removeAt_self _ _ (by simp)]
        simp [htngit, hxk]
      · rw [FS.lookup_setAt_diverge _ _ _ _
          (not_prefix_pair_right rn x k1 rn (rest ++ ["version.json"])
            (fun hh => hxk hh.symm))
          (not_prefix_pair_left rn x k1 rn (rest ++ ["version.json"]) hxk)]
        rw [ht2]
        rw [FS.lookup_setAt_diverge _ _ _ _
          (not_prefix_pair_right rn x k1 rn tail2 (fun hh => hxk hh.symm))
          (not_prefix_pair_left rn x k1 rn tail2 hxk)]
        rw [FS.lookup_removeAt_diverge _ _ _
          (not_prefix_pair_right rn x tn rn [] (fun hh => hxt hh.symm))
          (not_prefix_pair_left rn x tn rn [] hxt)]
        rw [FS.lookup_isSome_mkdirP _ _ _ hmk]
        have hnpre : ¬ (([rn, x] : List String) <+:
            rn :: (k1 :: rest).dropLast) := by
          cases rest with
          | nil => exact not_pair_prefix_single rn x rn
          | cons r1 rr =>
              exact not_prefix_pair_left rn x k1 rn (r1 :: rr).dropLast hxk
        rw [or_iff_left hnpre]
        rw [lookup_deletePass]
        rw [if_neg (by simp [hxg, hxt, hdf])]
        simp [hxg, hxk]

/-- Witness for the amended C2 at the sample run, read off at the
names .git, src and README.md. -/
theorem claim_C2_amended_witness :
    ((sampleFinal.lookup
      [repoNameOf (normalize_repo_url "https://example.com/proj"),
        ".git"]).isSome = true ↔
      ((".git" : String) = ".git" ∨
        (".git" : String) = (["src"] : List String).headD "")) ∧
    ((sampleFinal.lookup
      [repoNameOf (normalize_repo_url "https://example.com/proj"),
        "src"]).isSome = true ↔
      (("src" : String) = ".git" ∨
        ("src" : String) = (["src"] : List String).headD "")) ∧
    ((sampleFinal.lookup
      [repoNameOf (normalize_repo_url "https://example.com/proj"),
        "README.md"]).isSome = true ↔
      (("README.md" : String) = ".git" ∨
        ("README.md" : String) = (["src"] : List String).headD "")) := by
  have base := claim_C2_amended (.dir []) "https://example.com/proj" ["src"]
    "1.2.3" sampleOracle "20260101" sampleFinal
    ⟨"hello world", "1.2.3", ["a.py", "sub/b.js"]⟩
    ⟨"src20260101.zip", "src", sampleSubtree⟩
    rfl
    (by
      intro cwdA' hA
      rw [show acquireStep (FS.dir [])
          (repoNameOf (normalize_repo_url "https://example.com/proj"))
          sampleOracle = Except.ok (.dir [("proj", sampleRepo)]) from by
        simp +decide [acquireStep, sampleOracle, sampleRepo, FS.existsAt,
          FS.isDirAt, FS.lookup, childGet, FS.setAt, childSet, repoNameOf,
          pyStem, pySuffix, notDot, pyPathName, pathParts, splitOnChar,
          normalize_repo_url, pyStrip, stripChars, isPyWs,
          pyEndsWith]] at hA
      injection hA with hA
      subst hA
      simp +decide [FS.existsAt, FS.lookup, sampleRepo, childGet,
        repoNameOf, pyStem, pySuffix, notDot, pyPathName, pathParts,
        splitOnChar, normalize_repo_url, pyStrip, stripChars, isPyWs,
        pyEndsWith])
    sampleRun_eq
  exact ⟨base ".git", base "src", base "README.md"⟩
